import Mathlib

/-!
Verification development for the Norwegian text-checker repository.

The core under study is the diff engine `find_differences_charwise`, the
salvage projection `project_safe_word_corrections` and the word-edit filter
`is_small_word_edit` from `checker/views.py`.  Both are built on Python's
`difflib.SequenceMatcher` (with `autojunk=False` and no junk predicate),
which is embedded below by its documented specification: repeatedly pick
the longest matching block, ties broken by the earliest start in `a`, then
the earliest start in `b`.

Modelling conventions:
* Python strings are `List Char` (named `Str`).
* Unicode NFC normalisation is modelled as the identity (inputs are taken
  to be NFC-normal); the explicit `"\r\n" -> "\n"`, `"\r" -> "\n"`
  replacements of the source are modelled exactly.
* The regex character classes `\w`, `\s` and the letters-only class
  `[^\W\d_]` are modelled over the character repertoire relevant to the
  application (ASCII plus the Norwegian/accented letters the code targets).
* Float similarity thresholds are compared exactly as rationals:
  `ratio >= t` becomes `den * (2 * matches) >= num * (len a + len b)` for
  `t = num / den`.  For the chunk sizes the code admits (<= 180+180
  characters) the rational comparison coincides with the IEEE double
  comparison performed by Python, since `2*M/T` is at distance at least
  `1/(20*T)` from the threshold whenever the two differ.
-/

set_option maxRecDepth 10000

namespace NorwayApp

/-- Python strings are modelled as lists of characters. -/
abbrev Str := List Char

/-- Letters, modelling the regex class `[^\W\d_]` (Unicode letters) of
`WORD_RE` over the repertoire used by the application: ASCII letters plus
Norwegian and common accented letters. -/
def isLetterChar (c : Char) : Bool :=
  c.isAlpha || c = 'æ' || c = 'ø' || c = 'å' || c = 'Æ' || c = 'Ø' || c = 'Å' ||
    c = 'é' || c = 'É' || c = 'ü' || c = 'ö' || c = 'ä'

/-- Word characters, modelling the regex class `\w` (letters, digits,
underscore). -/
def isWordChar (c : Char) : Bool :=
  isLetterChar c || c.isDigit || c = '_'

/-- Whitespace, modelling the regex class `\s` / `str.strip` whitespace. -/
def isSpaceChar (c : Char) : Bool :=
  c = ' ' || c = '\t' || c = '\n' || c = '\r' || c = '\x0b' || c = '\x0c'

/-- Python `str.lower()` over the modelled repertoire (ASCII plus the
Norwegian capitals). -/
def pyLower (c : Char) : Char :=
  if c = 'Æ' then 'æ' else if c = 'Ø' then 'ø' else if c = 'Å' then 'å'
  else if c = 'É' then 'é' else c.toLower

/-- Python slice `s[a:b]` for `0 <= a`, `0 <= b` (out-of-range indices are
clamped, `a >= b` yields the empty string, exactly as in Python). -/
def pySlice (s : Str) (a b : Nat) : Str := (s.take b).drop a

/-- Python `str.strip()`: remove leading and trailing whitespace. -/
def pyStrip (s : Str) : Str :=
  ((s.dropWhile isSpaceChar).reverse.dropWhile isSpaceChar).reverse

/-- The source's `.replace("\r\n", "\n").replace("\r", "\n")`: a left-to-right
scan replacing each `"\r\n"` pair by `"\n"` and each remaining `"\r"` by
`"\n"`. -/
def normNewlines : Str → Str
  | [] => []
  | [c] => if c = '\r' then ['\n'] else [c]
  | c :: d :: rest =>
    if c = '\r' then
      if d = '\n' then '\n' :: normNewlines rest
      else '\n' :: normNewlines (d :: rest)
    else c :: normNewlines (d :: rest)

/-- The normalisation applied by `find_differences_charwise` to both inputs:
`unicodedata.normalize("NFC", ...)` (modelled as the identity) followed by the
newline replacements. -/
def normalizeText (s : Str) : Str := normNewlines s

/-- `norm_no_space` from the source: lowercase, then remove all whitespace
(`re.sub(r"\s+", "", s.lower())`). -/
def norm_no_space (s : Str) : Str :=
  (s.map pyLower).filter (fun c => !isSpaceChar c)

/-- `is_pure_punct` from the source: `re.fullmatch(r"[^\w\s]+", s)` — a
non-empty string of characters that are neither word characters nor
whitespace. -/
def is_pure_punct (s : Str) : Bool :=
  !s.isEmpty && s.all (fun c => !isWordChar c && !isSpaceChar c)

/-! ### Tokenizers

`find_differences_charwise` tokenizes with `token_re = \w+|[^\w\s]`:
maximal word-character runs, single non-word non-space characters,
whitespace skipped.  `extract_words` / `WORD_RE.finditer` use `[^\W\d_]+`:
maximal letter runs only.  Both are modelled as a single left-to-right
scan carrying the current position and the pending run (start position and
reversed characters). -/

/-- Scanner for `token_re = \w+|[^\w\s]`: produces the list of
`(token, start, stop)` triples, in order. -/
def tokScan : Str → Nat → Option (Nat × List Char) → List (Str × Nat × Nat)
  | [], _, none => []
  | [], _, some (s, acc) => [(acc.reverse, s, s + acc.length)]
  | c :: rest, p, none =>
    if isWordChar c then tokScan rest (p + 1) (some (p, [c]))
    else if isSpaceChar c then tokScan rest (p + 1) none
    else ([c], p, p + 1) :: tokScan rest (p + 1) none
  | c :: rest, p, some (s, acc) =>
    if isWordChar c then tokScan rest (p + 1) (some (s, c :: acc))
    else if isSpaceChar c then
      (acc.reverse, s, s + acc.length) :: tokScan rest (p + 1) none
    else
      (acc.reverse, s, s + acc.length) :: ([c], p, p + 1) :: tokScan rest (p + 1) none

/-- `tokens_with_spans` from `find_differences_charwise`. -/
def tokensWithSpans (s : Str) : List (Str × Nat × Nat) := tokScan s 0 none

/-- Scanner for `WORD_RE = [^\W\d_]+` (`finditer`): maximal letter runs with
their spans; everything else is skipped. -/
def wordScan : Str → Nat → Option (Nat × List Char) → List (Str × Nat × Nat)
  | [], _, none => []
  | [], _, some (s, acc) => [(acc.reverse, s, s + acc.length)]
  | c :: rest, p, none =>
    if isLetterChar c then wordScan rest (p + 1) (some (p, [c]))
    else wordScan rest (p + 1) none
  | c :: rest, p, some (s, acc) =>
    if isLetterChar c then wordScan rest (p + 1) (some (s, c :: acc))
    else (acc.reverse, s, s + acc.length) :: wordScan rest (p + 1) none

/-- `extract_words` from the source (NFC modelled as the identity). -/
def extract_words (s : Str) : List Str := (wordScan s 0 none).map (·.1)

/-! ### difflib.SequenceMatcher (autojunk=False, no junk)

`find_longest_match` returns the longest block of contiguous equal elements
within the window; among maximal blocks the one starting earliest in `a`,
then earliest in `b` (difflib's documented tie-break, which is what its
`j2len` scan computes when no element is junk).  `get_matching_blocks`
recursively splits around the longest match (the in-order traversal below
produces the same sorted list as difflib's queue + sort), then merges
adjacent blocks and appends the `(la, lb, 0)` sentinel.  `get_opcodes`
walks the merged blocks.  `ratio()` is `2*M/T` with `M` the total size of
the matching blocks and `T = la + lb`. -/

section SeqMatcher

variable {α : Type} [DecidableEq α]

/-- Length of the common prefix run of two lists. -/
def commonRun : List α → List α → Nat
  | a :: as, b :: bs => if a = b then commonRun as bs + 1 else 0
  | _, _ => 0

/-- Length of the longest run of equal elements of `a`/`b` starting at
`i`/`j` and staying below `ahi`/`bhi`. -/
def matchLen (a b : List α) (i j ahi bhi : Nat) : Nat :=
  commonRun ((a.take ahi).drop i) ((b.take bhi).drop j)

/-- All candidate start pairs of the window, in the scan order of difflib
(`i` ascending, then `j` ascending). -/
def candidatePairs (alo ahi blo bhi : Nat) : List (Nat × Nat) :=
  (List.range' alo (ahi - alo)).flatMap
    (fun i => (List.range' blo (bhi - blo)).map (fun j => (i, j)))

/-- One step of the `find_longest_match` scan: keep the candidate start pair
if its match length strictly beats the best so far. -/
def flmStep (a b : List α) (ahi bhi : Nat) (best : Nat × Nat × Nat) (ij : Nat × Nat) :
    Nat × Nat × Nat :=
  let k := matchLen a b ij.1 ij.2 ahi bhi
  if best.2.2 < k then (ij.1, ij.2, k) else best

/-- `find_longest_match(alo, ahi, blo, bhi)`: the longest matching block,
ties broken by smallest `i`, then smallest `j`; `(alo, blo, 0)` when there
is no match (difflib's scan keeps the first strictly-larger match, which
over the ascending candidate order is exactly this selection). -/
def find_longest_match (a b : List α) (alo ahi blo bhi : Nat) : Nat × Nat × Nat :=
  (candidatePairs alo ahi blo bhi).foldl (flmStep a b ahi bhi) (alo, blo, 0)

/-- The recursive block collection of `get_matching_blocks` (before merging
adjacent blocks).  The fuel argument strictly exceeds the recursion depth at
every top-level call, so it never runs out. -/
def matchingBlocksAux (a b : List α) : Nat → Nat → Nat → Nat → Nat → List (Nat × Nat × Nat)
  | 0, _, _, _, _ => []
  | fuel + 1, alo, ahi, blo, bhi =>
    let m := find_longest_match a b alo ahi blo bhi
    if m.2.2 = 0 then []
    else
      matchingBlocksAux a b fuel alo m.1 blo m.2.1 ++
        m :: matchingBlocksAux a b fuel (m.1 + m.2.2) ahi (m.2.1 + m.2.2) bhi

/-- difflib's merging of adjacent matching blocks, threading the current
block `(i1, j1, k1)` (initially `(0, 0, 0)`). -/
def mergeAdjacent : List (Nat × Nat × Nat) → Nat × Nat × Nat → List (Nat × Nat × Nat)
  | [], (i1, j1, k1) => if k1 ≠ 0 then [(i1, j1, k1)] else []
  | (i2, j2, k2) :: rest, (i1, j1, k1) =>
    if i1 + k1 = i2 ∧ j1 + k1 = j2 then mergeAdjacent rest (i1, j1, k1 + k2)
    else (if k1 ≠ 0 then [(i1, j1, k1)] else []) ++ mergeAdjacent rest (i2, j2, k2)

/-- `get_matching_blocks`: sorted maximal blocks, adjacent ones merged, plus
the `(la, lb, 0)` sentinel. -/
def get_matching_blocks (a b : List α) : List (Nat × Nat × Nat) :=
  mergeAdjacent
    (matchingBlocksAux a b (a.length + b.length + 1) 0 a.length 0 b.length)
    (0, 0, 0) ++ [(a.length, b.length, 0)]

/-- Opcode tags of `get_opcodes`. -/
inductive Tag where
  | equal
  | replace
  | insert
  | delete
deriving DecidableEq, Repr

/-- The opcode walk of `get_opcodes` over the matching blocks, threading the
current position `(i, j)`. -/
def opcodesAux : List (Nat × Nat × Nat) → Nat → Nat → List (Tag × Nat × Nat × Nat × Nat)
  | [], _, _ => []
  | (ai, bj, k) :: rest, i, j =>
    (if i < ai ∧ j < bj then [(Tag.replace, i, ai, j, bj)]
     else if i < ai then [(Tag.delete, i, ai, j, bj)]
     else if j < bj then [(Tag.insert, i, ai, j, bj)]
     else []) ++
    (if k ≠ 0 then [(Tag.equal, ai, ai + k, bj, bj + k)] else []) ++
    opcodesAux rest (ai + k) (bj + k)

/-- `get_opcodes`. -/
def get_opcodes (a b : List α) : List (Tag × Nat × Nat × Nat × Nat) :=
  opcodesAux (get_matching_blocks a b) 0 0

/-- Total size of the matching blocks — the `M` of `ratio() = 2*M/T`. -/
def matchesTotal (a b : List α) : Nat :=
  ((get_matching_blocks a b).map (fun x => x.2.2)).sum

/-- Exact comparison `SequenceMatcher(a, b).ratio() >= num/den`, i.e.
`2*M/T >= num/den` as rationals (for `T = 0` difflib defines the ratio as
`1.0`, and the comparison below is then `0 <= den*2*M`, also true). -/
def ratioGe (a b : List α) (num den : Nat) : Bool :=
  num * (a.length + b.length) ≤ den * (2 * matchesTotal a b)

end SeqMatcher

/-- `is_small_word_edit` from the source: equal after lowercasing, or a
SequenceMatcher ratio of at least 0.90 (very short words) / 0.70 (normal
words) on the lowercased forms. -/
def is_small_word_edit (a b : Str) : Bool :=
  let a0 := a.map pyLower
  let b0 := b.map pyLower
  if a0 = b0 then true
  else if max a0.length b0.length ≤ 3 then ratioGe a0 b0 90 100
  else ratioGe a0 b0 70 100

/-! ### The diff engine `find_differences_charwise` -/

/-- A raw diff, as built inside `find_differences_charwise` (all raw diffs
carry the extra corrected-string span `c_start`/`c_end`). -/
structure RawDiff where
  type : Tag
  start : Nat
  stop : Nat
  original : Str
  suggestion : Str
  cStart : Nat
  cStop : Nat
deriving DecidableEq, Repr

/-- The externally visible edit record `{type, start, end, original,
suggestion}` (field `end` is named `stop` here, `end` being a Lean
keyword). -/
structure EditRecord where
  type : Tag
  start : Nat
  stop : Nat
  original : Str
  suggestion : Str
deriving DecidableEq, Repr

/-- `span_for_token_range(spans, i1, i2, text_len)` from the source. -/
def span_for_token_range (spans : List (Nat × Nat)) (i1 i2 tlen : Nat) : Nat × Nat :=
  if spans.isEmpty then (0, 0)
  else if spans.length ≤ i1 then (tlen, tlen)
  else if i1 = i2 then ((spans.getD i1 (0, 0)).1, (spans.getD i1 (0, 0)).1)
  else ((spans.getD i1 (0, 0)).1, (spans.getD (i2 - 1) (0, 0)).2)

/-- The per-opcode classification of `find_differences_charwise`: the
locality guards (at most 14 tokens, at most 180 characters in the two
chunks) followed by the replace / insert / delete acceptance rules. -/
def classifyOp (origText corrText : Str) (origSpans corrSpans : List (Nat × Nat))
    (op : Tag × Nat × Nat × Nat × Nat) : Option RawDiff :=
  match op with
  | (tag, i1, i2, j1, j2) =>
    if tag = Tag.equal then none
    else
      let os := span_for_token_range origSpans i1 i2 origText.length
      let cs := span_for_token_range corrSpans j1 j2 corrText.length
      let oChunk := pySlice origText os.1 os.2
      let cChunk := pySlice corrText cs.1 cs.2
      if 14 < (i2 - i1) + (j2 - j1) then none
      else if 180 < oChunk.length + cChunk.length then none
      else if tag = Tag.replace then
        if norm_no_space oChunk = norm_no_space cChunk ∨
            ratioGe (oChunk.map pyLower) (cChunk.map pyLower) 55 100 = true then
          some ⟨Tag.replace, os.1, os.2, oChunk, cChunk, cs.1, cs.2⟩
        else none
      else if tag = Tag.insert then
        if ¬cChunk.isEmpty ∧ is_pure_punct cChunk = true then
          some ⟨Tag.insert, os.1, os.1, [], cChunk, cs.1, cs.2⟩
        else none
      else
        if ¬oChunk.isEmpty ∧ (is_pure_punct oChunk = true ∨ (pyStrip oChunk).length ≤ 2) then
          some ⟨Tag.delete, os.1, os.2, oChunk, [], cs.1, cs.2⟩
        else none

/-- The raw diff list of `find_differences_charwise` (before sorting,
grouping and dedup). -/
def rawDiffsOf (origText corrText : Str) : List RawDiff :=
  (get_opcodes ((tokensWithSpans origText).map (·.1))
      ((tokensWithSpans corrText).map (·.1))).filterMap
    (classifyOp origText corrText
      ((tokensWithSpans origText).map (fun t => (t.2.1, t.2.2)))
      ((tokensWithSpans corrText).map (fun t => (t.2.1, t.2.2))))

/-- The comparison `key=lambda d: (d["start"], d["end"])` of the sort. -/
def rawLe (d1 d2 : RawDiff) : Bool :=
  d1.start < d2.start || (d1.start = d2.start && d1.stop ≤ d2.stop)

/-- Stable insertion of one element (used to model Python's stable
`list.sort`; any two stable sorts by the same key agree). -/
def insortBy (le : RawDiff → RawDiff → Bool) (x : RawDiff) : List RawDiff → List RawDiff
  | [] => [x]
  | y :: ys => if le x y then x :: y :: ys else y :: insortBy le x ys

/-- Stable sort by `(start, end)`, modelling `raw_diffs.sort(...)`. -/
def sortRaw : List RawDiff → List RawDiff
  | [] => []
  | x :: xs => insortBy rawLe x (sortRaw xs)

/-- One step of the grouping loop: `acc` is the reversed `grouped` list (its
head is `grouped[-1]`).  Merges the next diff into the previous one when the
gap between them is whitespace-only and they are at most 2 apart. -/
def groupStep (origText corrText : Str) (acc : List RawDiff) (d : RawDiff) : List RawDiff :=
  match acc with
  | [] => [d]
  | prev :: tail =>
    let gap := pySlice origText prev.stop d.start
    if pyStrip gap = [] ∧ d.start ≤ prev.stop + 2 then
      let ne := max prev.stop d.stop
      let ns := min prev.start d.start
      let ncs := min prev.cStart d.cStart
      let nce := max prev.cStop d.cStop
      { type := Tag.replace, start := ns, stop := ne,
        original := pySlice origText ns ne,
        suggestion := pySlice corrText ncs nce,
        cStart := ncs, cStop := nce } :: tail
    else d :: prev :: tail

/-- The grouping loop (`grouped = [raw_diffs[0]]; for d in raw_diffs[1:]`). -/
def groupRaw (origText corrText : Str) (d0 : RawDiff) (rest : List RawDiff) : List RawDiff :=
  (rest.foldl (groupStep origText corrText) [d0]).reverse

/-- The projection of a raw diff onto the frontend record (`out.append`
keeps `type`, `start`, `end`, `original`, `suggestion`). -/
def projRecord (d : RawDiff) : EditRecord :=
  ⟨d.type, d.start, d.stop, d.original, d.suggestion⟩

/-- The final dedup loop over `grouped`, keyed by `(start, end, suggestion)`,
projecting each kept diff to the frontend record. -/
def dedupe : List RawDiff → List (Nat × Nat × Str) → List EditRecord
  | [], _ => []
  | d :: rest, seen =>
    if (d.start, d.stop, d.suggestion) ∈ seen then dedupe rest seen
    else ⟨d.type, d.start, d.stop, d.original, d.suggestion⟩ ::
      dedupe rest ((d.start, d.stop, d.suggestion) :: seen)

/-- `find_differences_charwise(original, corrected)` — the `diff` entry point
of the spec. -/
def find_differences_charwise (original corrected : Str) : List EditRecord :=
  if (normalizeText original).isEmpty ∧ (normalizeText corrected).isEmpty then []
  else
    match sortRaw (rawDiffsOf (normalizeText original) (normalizeText corrected)) with
    | [] => []
    | d0 :: rest =>
      dedupe (groupRaw (normalizeText original) (normalizeText corrected) d0 rest) []

/-! ### The salvage projection `project_safe_word_corrections` -/

/-- One splice `out[:s] + nw + out[e:]` of the application loop. -/
def splice (out : Str) (r : Nat × Nat × Str) : Str :=
  (out.take r.1) ++ r.2.2 ++ (out.drop r.2.1)

/-- Application of the collected replacements from the highest offset down
(`for s, e, nw in sorted(reps, key=lambda x: x[0], reverse=True)`). -/
def applyReps (orig : Str) (reps : List (Nat × Nat × Str)) : Str :=
  reps.foldl splice orig

/-- Stable insertion for the descending-by-start sort of the replacements. -/
def insortRep (x : Nat × Nat × Str) : List (Nat × Nat × Str) → List (Nat × Nat × Str)
  | [] => [x]
  | y :: ys => if y.1 ≤ x.1 then x :: y :: ys else y :: insortRep x ys

/-- Stable sort by start descending (`sorted(..., reverse=True)`). -/
def sortRepsDesc : List (Nat × Nat × Str) → List (Nat × Nat × Str)
  | [] => []
  | x :: xs => insortRep x (sortRepsDesc xs)

/-- One step of the replacement collection loop of
`project_safe_word_corrections`: a 1-to-1 `replace` opcode over the
lowercased word lists whose word pair passes `is_small_word_edit` yields
`(start, end, new_word)` from the original word match. -/
def collectRep (origMatches : List (Str × Nat × Nat)) (corrWords : List Str)
    (op : Tag × Nat × Nat × Nat × Nat) : Option (Nat × Nat × Str) :=
  match op with
  | (tag, i1, i2, j1, j2) =>
    if tag = Tag.replace ∧ i2 - i1 = 1 ∧ j2 - j1 = 1 then
      if is_small_word_edit (origMatches.getD i1 ([], 0, 0)).1 (corrWords.getD j1 []) then
        some ((origMatches.getD i1 ([], 0, 0)).2.1,
              (origMatches.getD i1 ([], 0, 0)).2.2, corrWords.getD j1 [])
      else none
    else none

/-- The replacement collection loop of `project_safe_word_corrections`. -/
def collectReps (origMatches : List (Str × Nat × Nat)) (corrWords : List Str)
    (ops : List (Tag × Nat × Nat × Nat × Nat)) : List (Nat × Nat × Str) :=
  ops.filterMap (collectRep origMatches corrWords)

/-- `project_safe_word_corrections(original, corrected)` from the source
(NFC modelled as the identity). -/
def project_safe_word_corrections (original corrected : Str) : Str :=
  let origMatches := wordScan original 0 none
  let corrWords := extract_words corrected
  let origWords := origMatches.map (·.1)
  if origWords.isEmpty ∨ corrWords.isEmpty then original
  else
    let reps := collectReps origMatches corrWords
      (get_opcodes (origWords.map (·.map pyLower)) (corrWords.map (·.map pyLower)))
    if reps.isEmpty then original
    else applyReps original (sortRepsDesc reps)

/-! ### Specification predicates used by the theorems -/

/-- Well-formedness of an edit record (raw or projected) with respect to the
normalized original text `ot`: a valid span, the original substring, and the
per-type invariants of the spec. -/
def RecWF (ot : Str) (start stop : Nat) (original suggestion : Str) (type : Tag) : Prop :=
  start ≤ stop ∧ stop ≤ ot.length ∧ original = pySlice ot start stop ∧
    (type = Tag.insert → start = stop) ∧ (type = Tag.delete → suggestion = [])

/-- Well-formedness of a matching-block list threaded from position
`(i0, j0)`: blocks are monotone and end within `la`/`lb`. -/
def BlocksOK (la lb : Nat) : Nat → Nat → List (Nat × Nat × Nat) → Prop
  | _, _, [] => True
  | i0, j0, (ai, bj, k) :: rest =>
    i0 ≤ ai ∧ j0 ≤ bj ∧ ai + k ≤ la ∧ bj + k ≤ lb ∧ BlocksOK la lb (ai + k) (bj + k) rest

/-- Well-formedness of a token-span list starting at position `p` in a text
of length `n`: spans are ordered and lie within the text. -/
def SpansOK (n : Nat) : Nat → List (Nat × Nat) → Prop
  | _, [] => True
  | p, (s, e) :: rest => p ≤ s ∧ s ≤ e ∧ e ≤ n ∧ SpansOK n e rest

/-- Strict separation of two records: the first ends before the second
starts (transitively closed together with `stop ≤ stop`). -/
def GOrd (x y : EditRecord) : Prop := x.stop < y.start ∧ x.stop ≤ y.stop

/-- Strict separation for raw diffs. -/
def GOrdRaw (x y : RawDiff) : Prop := x.stop < y.start ∧ x.stop ≤ y.stop

/-- Letter-word content of a scan, as a stateless function of the remaining
text and the reversed pending run: the word list produced by
`WORD_RE.findall` (proved equal to `extract_words` below). -/
def wordsAux : Str → List Char → List Str
  | [], acc => if acc.isEmpty then [] else [acc.reverse]
  | c :: l, acc =>
    if isLetterChar c then wordsAux l (c :: acc)
    else (if acc.isEmpty then [] else [acc.reverse]) ++ wordsAux l []

/-- Replacement spans in strictly descending disjoint order, all below `n`:
the shape in which `project_safe_word_corrections` applies its
replacements. -/
def SpansBelow : Nat → List (Nat × Nat × Str) → Prop
  | _, [] => True
  | n, (s, e, _) :: rest => s < e ∧ e ≤ n ∧ SpansBelow s rest

/-- Soundness facts for a single `WORD_RE` match `(word, start, stop)` of
the text `t`: the word is the (non-empty, all-letter) substring at its
span, and the span is a maximal letter run. -/
def WordTokOK (t : Str) (x : Str × Nat × Nat) : Prop :=
  x.1 = pySlice t x.2.1 x.2.2 ∧ x.2.1 < x.2.2 ∧ x.2.2 ≤ t.length ∧
    x.1.all isLetterChar = true ∧
    (x.2.1 = 0 ∨ isLetterChar (t.getD (x.2.1 - 1) ' ') = false) ∧
    (x.2.2 = t.length ∨ isLetterChar (t.getD x.2.2 ' ') = false)

/-- A single well-formed replacement of `project_safe_word_corrections`
against the original string `o`: `[s, e)` is a maximal letter run of `o`
(a `WORD_RE` match), the replacement word `w` is a non-empty letter word,
and the pair passes `is_small_word_edit`. -/
def RepOK (o : Str) (s e : Nat) (w : Str) : Prop :=
  s < e ∧ e ≤ o.length ∧
    (pySlice o s e).all isLetterChar = true ∧
    (s = 0 ∨ isLetterChar (o.getD (s - 1) ' ') = false) ∧
    (e = o.length ∨ isLetterChar (o.getD e ' ') = false) ∧
    w ≠ [] ∧ w.all isLetterChar = true ∧
    is_small_word_edit (pySlice o s e) w = true

/-! ## Theorems -/

/-! ### SequenceMatcher lemmas -/

section SeqMatcherLemmas

variable {α : Type} [DecidableEq α]

theorem foldl_invariant {β γ : Type} (f : β → γ → β) (P : β → Prop) :
    ∀ (l : List γ) (init : β), P init → (∀ b x, x ∈ l → P b → P (f b x)) →
      P (l.foldl f init)
  | [], _, h0, _ => h0
  | x :: xs, init, h0, hstep =>
    foldl_invariant f P xs (f init x) (hstep init x (List.mem_cons_self x xs) h0)
      (fun b y hy hb => hstep b y (List.mem_cons_of_mem x hy) hb)

theorem foldl_stall {β γ : Type} (f : β → γ → β) (l : List γ) (b : β)
    (h : ∀ x ∈ l, f b x = b) : l.foldl f b = b := by
  induction l with
  | nil => rfl
  | cons x xs ih =>
    simp only [List.foldl_cons, h x (List.mem_cons_self x xs)]
    exact ih (fun y hy => h y (List.mem_cons_of_mem x hy))

theorem commonRun_le_left : ∀ (xs ys : List α), commonRun xs ys ≤ xs.length
  | [], _ => by simp [commonRun]
  | _ :: _, [] => by simp [commonRun]
  | x :: xs, y :: ys => by
    simp only [commonRun, List.length_cons]
    split
    · exact Nat.succ_le_succ (commonRun_le_left xs ys)
    · exact Nat.zero_le _

theorem commonRun_le_right : ∀ (xs ys : List α), commonRun xs ys ≤ ys.length
  | [], _ => by simp [commonRun]
  | _ :: _, [] => by simp [commonRun]
  | x :: xs, y :: ys => by
    simp only [commonRun, List.length_cons]
    split
    · exact Nat.succ_le_succ (commonRun_le_right xs ys)
    · exact Nat.zero_le _

theorem commonRun_self : ∀ (xs : List α), commonRun xs xs = xs.length
  | [] => rfl
  | x :: xs => by simp [commonRun, commonRun_self xs]

theorem matchLen_le (a b : List α) (i j ahi bhi : Nat) :
    matchLen a b i j ahi bhi ≤ ahi - i ∧ matchLen a b i j ahi bhi ≤ bhi - j := by
  constructor
  · calc matchLen a b i j ahi bhi ≤ ((a.take ahi).drop i).length :=
          commonRun_le_left _ _
      _ = (a.take ahi).length - i := by rw [List.length_drop]
      _ ≤ ahi - i := by
          have : (a.take ahi).length ≤ ahi := by
            rw [List.length_take]; exact Nat.min_le_left _ _
          omega
  · calc matchLen a b i j ahi bhi ≤ ((b.take bhi).drop j).length :=
          commonRun_le_right _ _
      _ = (b.take bhi).length - j := by rw [List.length_drop]
      _ ≤ bhi - j := by
          have : (b.take bhi).length ≤ bhi := by
            rw [List.length_take]; exact Nat.min_le_left _ _
          omega

theorem mem_candidatePairs {alo ahi blo bhi : Nat} {ij : Nat × Nat}
    (h : ij ∈ candidatePairs alo ahi blo bhi) :
    alo ≤ ij.1 ∧ ij.1 < ahi ∧ blo ≤ ij.2 ∧ ij.2 < bhi := by
  rcases ij with ⟨i, j⟩
  unfold candidatePairs at h
  rw [List.mem_flatMap] at h
  obtain ⟨i', hi', hmem⟩ := h
  rw [List.mem_map] at hmem
  obtain ⟨j', hj', hEq⟩ := hmem
  cases hEq
  rw [List.mem_range'_1] at hi' hj'
  exact ⟨hi'.1, by omega, hj'.1, by omega⟩

/-- The fold of `find_longest_match` returns either the initial value
`(alo, blo, 0)` or a candidate start pair with its match length. -/
theorem find_longest_match_spec (a b : List α) (alo ahi blo bhi : Nat) :
    find_longest_match a b alo ahi blo bhi = (alo, blo, 0) ∨
      (alo ≤ (find_longest_match a b alo ahi blo bhi).1 ∧
        (find_longest_match a b alo ahi blo bhi).1 < ahi ∧
        blo ≤ (find_longest_match a b alo ahi blo bhi).2.1 ∧
        (find_longest_match a b alo ahi blo bhi).2.1 < bhi ∧
        (find_longest_match a b alo ahi blo bhi).2.2 =
          matchLen a b (find_longest_match a b alo ahi blo bhi).1
            (find_longest_match a b alo ahi blo bhi).2.1 ahi bhi) := by
  unfold find_longest_match
  exact foldl_invariant (flmStep a b ahi bhi)
    (fun r => r = (alo, blo, 0) ∨
      (alo ≤ r.1 ∧ r.1 < ahi ∧ blo ≤ r.2.1 ∧ r.2.1 < bhi ∧
        r.2.2 = matchLen a b r.1 r.2.1 ahi bhi))
    (candidatePairs alo ahi blo bhi) (alo, blo, 0) (Or.inl rfl)
    (by
      intro best ij hij hbest
      unfold flmStep
      simp only
      split
      · right
        obtain ⟨h1, h2, h3, h4⟩ := mem_candidatePairs hij
        exact ⟨h1, h2, h3, h4, rfl⟩
      · exact hbest)

/-- Window bounds for the result of `find_longest_match`. -/
theorem find_longest_match_bounds (a b : List α) (alo ahi blo bhi : Nat)
    (h1 : alo ≤ ahi) (h2 : blo ≤ bhi) :
    alo ≤ (find_longest_match a b alo ahi blo bhi).1 ∧
      (find_longest_match a b alo ahi blo bhi).1 +
        (find_longest_match a b alo ahi blo bhi).2.2 ≤ ahi ∧
      blo ≤ (find_longest_match a b alo ahi blo bhi).2.1 ∧
      (find_longest_match a b alo ahi blo bhi).2.1 +
        (find_longest_match a b alo ahi blo bhi).2.2 ≤ bhi := by
  rcases find_longest_match_spec a b alo ahi blo bhi with h | ⟨ha, hb, hc, hd, he⟩
  · rw [h]; simp; omega
  · have hle := matchLen_le a b (find_longest_match a b alo ahi blo bhi).1
      (find_longest_match a b alo ahi blo bhi).2.1 ahi bhi
    rw [he]
    refine ⟨ha, ?_, hc, ?_⟩ <;> omega

theorem flatMap_const_nil {β γ : Type} (l : List β) :
    (l.flatMap fun _ => ([] : List γ)) = [] := by
  induction l with
  | nil => rfl
  | cons x xs ih => simp [ih]

/-- An empty `a`-window yields no match. -/
theorem find_longest_match_empty_a (a b : List α) (alo blo bhi : Nat) :
    find_longest_match a b alo alo blo bhi = (alo, blo, 0) := by
  unfold find_longest_match candidatePairs
  simp

/-- An empty `b`-window yields no match. -/
theorem find_longest_match_empty_b (a b : List α) (alo ahi blo : Nat) :
    find_longest_match a b alo ahi blo blo = (alo, blo, 0) := by
  unfold find_longest_match candidatePairs
  simp [flatMap_const_nil]

/-- On two copies of the same list the longest match is the whole list. -/
theorem find_longest_match_self (a : List α) (n : Nat) (hn : a.length = n) :
    find_longest_match a a 0 n 0 n = (0, 0, n) := by
  rcases Nat.eq_zero_or_pos n with h0 | hpos
  · subst h0; exact find_longest_match_empty_a a a 0 0 0
  · obtain ⟨m, rfl⟩ : ∃ m, n = m + 1 := ⟨n - 1, by omega⟩
    have hc : candidatePairs 0 (m + 1) 0 (m + 1) = (0, 0) ::
        ((List.range' 1 m).map (fun j => ((0 : Nat), j)) ++
          (List.range' 1 m).flatMap
            (fun i => (List.range' 0 (m + 1)).map (fun j => (i, j)))) := by
      unfold candidatePairs
      simp only [Nat.sub_zero]
      rw [show List.range' 0 (m + 1) = 0 :: List.range' 1 m from rfl,
        List.flatMap_cons, List.map_cons]
      rfl
    have hfirst : matchLen a a 0 0 (m + 1) (m + 1) = m + 1 := by
      simp only [matchLen, List.drop_zero, ← hn, List.take_length, commonRun_self]
    unfold find_longest_match
    rw [hc, List.foldl_cons]
    have hstep : flmStep a a (m + 1) (m + 1) (0, 0, 0) (0, 0) = (0, 0, m + 1) := by
      unfold flmStep
      simp only [hfirst]
      rw [if_pos hpos]
    rw [hstep]
    apply foldl_stall
    intro x _
    unfold flmStep
    simp only
    rw [if_neg]
    have := (matchLen_le a a x.1 x.2 (m + 1) (m + 1)).1
    omega

theorem BlocksOK_mono_start {la lb : Nat} {i0 j0 i0' j0' : Nat} {l : List (Nat × Nat × Nat)}
    (h : BlocksOK la lb i0 j0 l) (h1 : i0' ≤ i0) (h2 : j0' ≤ j0) :
    BlocksOK la lb i0' j0' l := by
  cases l with
  | nil => trivial
  | cons x rest =>
    rcases x with ⟨ai, bj, k⟩
    simp only [BlocksOK] at h ⊢
    exact ⟨by omega, by omega, h.2.2.1, h.2.2.2.1, h.2.2.2.2⟩

theorem BlocksOK_mono_len {la lb la' lb' : Nat} (h1 : la ≤ la') (h2 : lb ≤ lb') :
    ∀ {i0 j0 : Nat} {l : List (Nat × Nat × Nat)},
      BlocksOK la lb i0 j0 l → BlocksOK la' lb' i0 j0 l := by
  intro i0 j0 l
  induction l generalizing i0 j0 with
  | nil => intro _; trivial
  | cons x rest ih =>
    rcases x with ⟨ai, bj, k⟩
    intro h
    simp only [BlocksOK] at h ⊢
    exact ⟨h.1, h.2.1, by omega, by omega, ih h.2.2.2.2⟩

theorem BlocksOK_elem {la lb : Nat} :
    ∀ {i0 j0 : Nat} {l : List (Nat × Nat × Nat)}, BlocksOK la lb i0 j0 l →
      ∀ x ∈ l, i0 ≤ x.1 ∧ x.1 + x.2.2 ≤ la ∧ j0 ≤ x.2.1 ∧ x.2.1 + x.2.2 ≤ lb := by
  intro i0 j0 l
  induction l generalizing i0 j0 with
  | nil => intro _ x hx; cases hx
  | cons y rest ih =>
    rcases y with ⟨ai, bj, k⟩
    intro h x hx
    simp only [BlocksOK] at h
    rcases List.mem_cons.mp hx with rfl | hx'
    · exact ⟨h.1, h.2.2.1, h.2.1, h.2.2.2.1⟩
    · have hx2 := ih h.2.2.2.2 x hx'
      exact ⟨by omega, hx2.2.1, by omega, hx2.2.2.2⟩

theorem BlocksOK_append (la lb i1 j1 : Nat) :
    ∀ {i0 j0 : Nat} {l1 l2 : List (Nat × Nat × Nat)}, BlocksOK la lb i0 j0 l1 →
      (∀ x ∈ l1, x.1 + x.2.2 ≤ i1 ∧ x.2.1 + x.2.2 ≤ j1) →
      i0 ≤ i1 → j0 ≤ j1 → BlocksOK la lb i1 j1 l2 → BlocksOK la lb i0 j0 (l1 ++ l2) := by
  intro i0 j0 l1
  induction l1 generalizing i0 j0 with
  | nil => intro l2 _ _ hi hj h2; exact BlocksOK_mono_start h2 hi hj
  | cons y rest ih =>
    rcases y with ⟨ai, bj, k⟩
    intro l2 h1 hb hi hj h2
    simp only [List.cons_append, BlocksOK] at h1 ⊢
    refine ⟨h1.1, h1.2.1, h1.2.2.1, h1.2.2.2.1, ?_⟩
    have hhead := hb (ai, bj, k) (List.mem_cons_self _ _)
    exact ih h1.2.2.2.2 (fun x hx => hb x (List.mem_cons_of_mem _ hx)) hhead.1 hhead.2 h2

theorem matchingBlocksAux_ok (a b : List α) :
    ∀ (fuel alo ahi blo bhi : Nat), alo ≤ ahi → blo ≤ bhi →
      BlocksOK ahi bhi alo blo (matchingBlocksAux a b fuel alo ahi blo bhi) := by
  intro fuel
  induction fuel with
  | zero => intro alo ahi blo bhi _ _; simp only [matchingBlocksAux]; trivial
  | succ fuel ih =>
    intro alo ahi blo bhi h1 h2
    have hb := find_longest_match_bounds a b alo ahi blo bhi h1 h2
    rcases hspec : find_longest_match a b alo ahi blo bhi with ⟨i, j, k⟩
    rw [hspec] at hb
    simp only at hb
    simp only [matchingBlocksAux, hspec]
    by_cases hk : k = 0
    · simp only [hk, if_pos rfl]; trivial
    · simp only [if_neg hk]
      have hleft : BlocksOK i j alo blo (matchingBlocksAux a b fuel alo i blo j) :=
        ih alo i blo j hb.1 hb.2.2.1
      apply BlocksOK_append ahi bhi i j
      · exact BlocksOK_mono_len (by omega) (by omega) hleft
      · intro x hx
        have := BlocksOK_elem hleft x hx
        exact ⟨this.2.1, this.2.2.2⟩
      · exact hb.1
      · exact hb.2.2.1
      · simp only [BlocksOK]
        exact ⟨le_refl _, le_refl _, hb.2.1, hb.2.2.2,
          ih (i + k) ahi (j + k) bhi hb.2.1 hb.2.2.2⟩

theorem mergeAdjacent_ok {la lb : Nat} :
    ∀ (l : List (Nat × Nat × Nat)) (i1 j1 k1 : Nat),
      i1 + k1 ≤ la → j1 + k1 ≤ lb → BlocksOK la lb (i1 + k1) (j1 + k1) l →
      BlocksOK la lb i1 j1 (mergeAdjacent l (i1, j1, k1)) := by
  intro l
  induction l with
  | nil =>
    intro i1 j1 k1 h1 h2 _
    simp only [mergeAdjacent]
    split
    · simp only [BlocksOK]; exact ⟨le_refl _, le_refl _, h1, h2, trivial⟩
    · trivial
  | cons y rest ih =>
    rcases y with ⟨i2, j2, k2⟩
    intro i1 j1 k1 h1 h2 h
    simp only [BlocksOK] at h
    simp only [mergeAdjacent]
    split
    · rename_i hcond
      have hgoal := ih i1 j1 (k1 + k2) (by omega) (by omega)
        (by
          have hi : i1 + (k1 + k2) = i2 + k2 := by omega
          have hj : j1 + (k1 + k2) = j2 + k2 := by omega
          rw [hi, hj]
          exact h.2.2.2.2)
      exact hgoal
    · rename_i hcond
      have hrest : BlocksOK la lb i2 j2 (mergeAdjacent rest (i2, j2, k2)) :=
        ih i2 j2 k2 h.2.2.1 h.2.2.2.1 h.2.2.2.2
      split
      · simp only [List.singleton_append, BlocksOK]
        exact ⟨le_refl _, le_refl _, h1, h2,
          BlocksOK_mono_start hrest (by omega) (by omega)⟩
      · simp only [List.nil_append]
        exact BlocksOK_mono_start hrest (by omega) (by omega)

theorem get_matching_blocks_ok (a b : List α) :
    BlocksOK a.length b.length 0 0 (get_matching_blocks a b) := by
  unfold get_matching_blocks
  have hmain := matchingBlocksAux_ok a b (a.length + b.length + 1) 0 a.length 0 b.length
    (Nat.zero_le _) (Nat.zero_le _)
  have hmerged : BlocksOK a.length b.length 0 0
      (mergeAdjacent
        (matchingBlocksAux a b (a.length + b.length + 1) 0 a.length 0 b.length)
        (0, 0, 0)) := by
    apply mergeAdjacent_ok _ 0 0 0 (Nat.zero_le _) (Nat.zero_le _)
    exact hmain
  apply BlocksOK_append a.length b.length a.length b.length hmerged
  · intro x hx
    have := BlocksOK_elem hmerged x hx
    exact ⟨this.2.1, this.2.2.2⟩
  · exact Nat.zero_le _
  · exact Nat.zero_le _
  · simp only [BlocksOK]
    exact ⟨le_refl _, le_refl _, le_refl _, le_refl _, trivial⟩

/-- Every opcode produced by the walk is a well-formed index range. -/
theorem opcodesAux_mem_bounds {la lb : Nat} :
    ∀ {l : List (Nat × Nat × Nat)} {i0 j0 : Nat}, BlocksOK la lb i0 j0 l →
      ∀ op ∈ opcodesAux l i0 j0,
        i0 ≤ op.2.1 ∧ op.2.1 ≤ op.2.2.1 ∧ op.2.2.1 ≤ la ∧
        j0 ≤ op.2.2.2.1 ∧ op.2.2.2.1 ≤ op.2.2.2.2 ∧ op.2.2.2.2 ≤ lb := by
  intro l
  induction l with
  | nil => intro i0 j0 _ op hop; cases hop
  | cons y rest ih =>
    rcases y with ⟨ai, bj, k⟩
    intro i0 j0 h op hop
    simp only [BlocksOK] at h
    simp only [opcodesAux] at hop
    rcases List.mem_append.mp hop with hop1 | hop3
    · rcases List.mem_append.mp hop1 with hpre | heq
      · split at hpre
        · simp only [List.mem_singleton] at hpre
          subst hpre
          dsimp only
          omega
        · split at hpre
          · simp only [List.mem_singleton] at hpre
            subst hpre
            dsimp only
            omega
          · split at hpre
            · simp only [List.mem_singleton] at hpre
              subst hpre
              dsimp only
              omega
            · cases hpre
      · split at heq
        · simp only [List.mem_singleton] at heq
          subst heq
          dsimp only
          omega
        · cases heq
    · have := ih h.2.2.2.2 op hop3
      exact ⟨by omega, this.2.1, this.2.2.1, by omega, this.2.2.2.2.1, this.2.2.2.2.2⟩

/-- The opcode walk produces index ranges in increasing order: every later
opcode starts at or after the end of every earlier one, on both sides. -/
theorem opcodesAux_pairwise {la lb : Nat} :
    ∀ {l : List (Nat × Nat × Nat)} {i0 j0 : Nat}, BlocksOK la lb i0 j0 l →
      List.Pairwise (fun x y => x.2.2.1 ≤ y.2.1 ∧ x.2.2.2.2 ≤ y.2.2.2.1)
        (opcodesAux l i0 j0) := by
  intro l
  induction l with
  | nil => intro i0 j0 _; simp [opcodesAux]
  | cons y rest ih =>
    rcases y with ⟨ai, bj, k⟩
    intro i0 j0 h
    simp only [BlocksOK] at h
    simp only [opcodesAux]
    have hsingle : ∀ (P : Prop) [Decidable P] (x : Tag × Nat × Nat × Nat × Nat),
        List.Pairwise (fun x y => x.2.2.1 ≤ y.2.1 ∧ x.2.2.2.2 ≤ y.2.2.2.1)
          (if P then [x] else []) := by
      intro P _ x; split <;> simp
    have hpre : ∀ x, x ∈ (if i0 < ai ∧ j0 < bj then [(Tag.replace, i0, ai, j0, bj)]
        else if i0 < ai then [(Tag.delete, i0, ai, j0, bj)]
        else if j0 < bj then [(Tag.insert, i0, ai, j0, bj)]
        else []) → x.2.2.1 = ai ∧ x.2.2.2.2 = bj := by
      intro x hx
      split at hx
      · simp only [List.mem_singleton] at hx; subst hx; exact ⟨rfl, rfl⟩
      · split at hx
        · simp only [List.mem_singleton] at hx; subst hx; exact ⟨rfl, rfl⟩
        · split at hx
          · simp only [List.mem_singleton] at hx; subst hx; exact ⟨rfl, rfl⟩
          · cases hx
    have heqmem : ∀ y, y ∈ (if k ≠ 0 then [(Tag.equal, ai, ai + k, bj, bj + k)]
        else []) → y.2.1 = ai ∧ y.2.2.1 = ai + k ∧ y.2.2.2.1 = bj ∧
          y.2.2.2.2 = bj + k := by
      intro y hy
      split at hy
      · simp only [List.mem_singleton] at hy; subst hy; exact ⟨rfl, rfl, rfl, rfl⟩
      · cases hy
    rw [List.pairwise_append]
    refine ⟨?_, ih h.2.2.2.2, ?_⟩
    · rw [List.pairwise_append]
      refine ⟨?_, hsingle _ _, ?_⟩
      · split
        · simp
        · split
          · simp
          · split
            · simp
            · simp
      · intro x hx y hy
        have h1 := hpre x hx
        have h2 := heqmem y hy
        omega
    · intro x hx y hy
      have hb := opcodesAux_mem_bounds h.2.2.2.2 y hy
      rcases List.mem_append.mp hx with hx1 | hx2
      · have h1 := hpre x hx1
        omega
      · have h2 := heqmem x hx2
        omega

/-- Degenerate window: no blocks at all (left edge). -/
theorem matchingBlocksAux_empty_a (a b : List α) :
    ∀ (fuel alo blo bhi : Nat), matchingBlocksAux a b fuel alo alo blo bhi = [] := by
  intro fuel alo blo bhi
  cases fuel with
  | zero => simp [matchingBlocksAux]
  | succ fuel =>
    simp only [matchingBlocksAux, find_longest_match_empty_a]
    rfl

/-- Degenerate window: no blocks at all (right edge). -/
theorem matchingBlocksAux_empty_b (a b : List α) :
    ∀ (fuel alo ahi blo : Nat), matchingBlocksAux a b fuel alo ahi blo blo = [] := by
  intro fuel alo ahi blo
  cases fuel with
  | zero => simp [matchingBlocksAux]
  | succ fuel =>
    simp only [matchingBlocksAux, find_longest_match_empty_b]
    rfl

/-- Comparing a token list against itself yields at most one `equal`
opcode. -/
theorem get_opcodes_self (a : List α) :
    get_opcodes a a =
      if a.length = 0 then [] else [(Tag.equal, 0, a.length, 0, a.length)] := by
  unfold get_opcodes get_matching_blocks
  by_cases h0 : a.length = 0
  · rw [h0]
    have hraw : matchingBlocksAux a a (0 + 0 + 1) 0 0 0 0 = [] :=
      matchingBlocksAux_empty_a a a _ 0 0 0
    rw [hraw]
    simp [mergeAdjacent, opcodesAux]
  · have hraw : matchingBlocksAux a a (a.length + a.length + 1) 0 a.length 0 a.length =
        [(0, 0, a.length)] := by
      simp only [matchingBlocksAux, find_longest_match_self a a.length rfl]
      rw [if_neg h0]
      simp only [Nat.zero_add]
      rw [matchingBlocksAux_empty_a, matchingBlocksAux_empty_a]
      rfl
    rw [hraw]
    have hmerge : mergeAdjacent [(0, 0, a.length)] (0, 0, 0) = [(0, 0, a.length)] := by
      simp [mergeAdjacent, h0]
    rw [hmerge]
    rw [if_neg h0]
    simp only [opcodesAux, Nat.zero_add, Nat.add_zero]
    rw [if_neg (by omega : ¬((0 : Nat) < 0 ∧ (0 : Nat) < 0)),
      if_neg (by omega : ¬(0 : Nat) < 0), if_neg (by omega : ¬(0 : Nat) < 0),
      if_pos h0]
    rw [if_neg (by omega : ¬(a.length < a.length ∧ a.length < a.length)),
      if_neg (by omega : ¬a.length < a.length), if_neg (by omega : ¬a.length < a.length),
      if_neg (by simp : ¬(0 : Nat) ≠ 0)]
    simp

/-- Comparing against the empty token list yields at most one `delete`
opcode covering everything. -/
theorem get_opcodes_nil_right (a : List α) :
    get_opcodes a ([] : List α) =
      if a.length = 0 then [] else [(Tag.delete, 0, a.length, 0, 0)] := by
  unfold get_opcodes get_matching_blocks
  simp only [List.length_nil]
  have hraw : matchingBlocksAux a ([] : List α) (a.length + 0 + 1) 0 a.length 0 0 = [] :=
    matchingBlocksAux_empty_b a [] _ 0 a.length 0
  rw [hraw]
  have hmerge : mergeAdjacent ([] : List (Nat × Nat × Nat)) (0, 0, 0) = [] := by
    simp [mergeAdjacent]
  rw [hmerge]
  by_cases h0 : a.length = 0
  · rw [h0]
    simp [opcodesAux]
  · rw [if_neg h0]
    simp only [List.nil_append, opcodesAux, Nat.zero_add, Nat.add_zero]
    have h1 : (0 : Nat) < a.length := by omega
    rw [if_neg (by omega : ¬((0 : Nat) < a.length ∧ (0 : Nat) < 0)), if_pos h1,
      if_neg (by simp : ¬(0 : Nat) ≠ 0)]
    simp

end SeqMatcherLemmas

/-! ### Tokenizer span lemmas -/

theorem SpansOK_mono {n : Nat} :
    ∀ {p p' : Nat} {l : List (Nat × Nat)}, SpansOK n p l → p' ≤ p → SpansOK n p' l := by
  intro p p' l h hp
  cases l with
  | nil => trivial
  | cons x rest =>
    rcases x with ⟨s, e⟩
    simp only [SpansOK] at h ⊢
    exact ⟨by omega, h.2.1, h.2.2.1, h.2.2.2⟩

theorem SpansOK_all {n : Nat} :
    ∀ {p : Nat} {l : List (Nat × Nat)}, SpansOK n p l →
      ∀ x ∈ l, p ≤ x.1 ∧ x.1 ≤ x.2 ∧ x.2 ≤ n := by
  intro p l
  induction l generalizing p with
  | nil => intro _ x hx; cases hx
  | cons y rest ih =>
    rcases y with ⟨s, e⟩
    intro h x hx
    simp only [SpansOK] at h
    rcases List.mem_cons.mp hx with rfl | hx'
    · exact ⟨h.1, h.2.1, h.2.2.1⟩
    · have := ih h.2.2.2 x hx'
      exact ⟨by omega, this.2.1, this.2.2⟩

theorem SpansOK_pairwise {n : Nat} :
    ∀ {p : Nat} {l : List (Nat × Nat)}, SpansOK n p l →
      List.Pairwise (fun x y => x.2 ≤ y.1) l := by
  intro p l
  induction l generalizing p with
  | nil => intro _; simp
  | cons y rest ih =>
    rcases y with ⟨s, e⟩
    intro h
    simp only [SpansOK] at h
    exact List.Pairwise.cons (fun x hx => (SpansOK_all h.2.2.2 x hx).1) (ih h.2.2.2)

/-- The token scanner produces ordered in-bounds spans. -/
theorem tokScan_spansOK :
    ∀ (l : Str) (p : Nat) (pend : Option (Nat × List Char)),
      (∀ s acc, pend = some (s, acc) → s + acc.length = p) →
      SpansOK (p + l.length)
        (match pend with | none => p | some (s, _) => s)
        ((tokScan l p pend).map (fun tok => (tok.2.1, tok.2.2))) := by
  intro l
  induction l with
  | nil =>
    intro p pend hp
    cases pend with
    | none => simp only [tokScan, List.map_nil]; trivial
    | some sa =>
      rcases sa with ⟨s, acc⟩
      have := hp s acc rfl
      simp only [tokScan, List.map_cons, List.map_nil, SpansOK, and_true]
      refine ⟨le_refl _, by omega, by omega⟩
  | cons c rest ih =>
    intro p pend hp
    cases pend with
    | none =>
      simp only [tokScan]
      by_cases hw : isWordChar c
      · rw [if_pos hw]
        have hres := ih (p + 1) (some (p, [c])) (by intro s acc h; cases h; rfl)
        simp only at hres
        have hlen : p + 1 + rest.length = p + (c :: rest).length := by
          simp [List.length_cons]; omega
        rw [hlen] at hres
        exact hres
      · rw [if_neg hw]
        by_cases hs : isSpaceChar c
        · rw [if_pos hs]
          have hres := ih (p + 1) none (by intro s acc h; cases h)
          simp only at hres
          have hlen : p + 1 + rest.length = p + (c :: rest).length := by
            simp [List.length_cons]; omega
          rw [hlen] at hres
          exact SpansOK_mono hres (by omega)
        · rw [if_neg hs]
          simp only [List.map_cons, SpansOK]
          have hres := ih (p + 1) none (by intro s acc h; cases h)
          simp only at hres
          have hlen : p + 1 + rest.length = p + (c :: rest).length := by
            simp [List.length_cons]; omega
          rw [hlen] at hres
          refine ⟨le_refl _, by omega, by omega, hres⟩
    | some sa =>
      rcases sa with ⟨s, acc⟩
      have hinv := hp s acc rfl
      simp only [tokScan]
      by_cases hw : isWordChar c
      · rw [if_pos hw]
        have hres := ih (p + 1) (some (s, c :: acc))
          (by intro s' acc' h; cases h; simp [List.length_cons]; omega)
        simp only at hres
        have hlen : p + 1 + rest.length = p + (c :: rest).length := by
          simp [List.length_cons]; omega
        rw [hlen] at hres
        exact hres
      · rw [if_neg hw]
        by_cases hs : isSpaceChar c
        · rw [if_pos hs]
          simp only [List.map_cons, SpansOK]
          have hres := ih (p + 1) none (by intro s' acc' h; cases h)
          simp only at hres
          have hlen : p + 1 + rest.length = p + (c :: rest).length := by
            simp [List.length_cons]; omega
          rw [hlen] at hres
          refine ⟨le_refl _, by omega, by omega, SpansOK_mono hres (by omega)⟩
        · rw [if_neg hs]
          simp only [List.map_cons, SpansOK]
          have hres := ih (p + 1) none (by intro s' acc' h; cases h)
          simp only at hres
          have hlen : p + 1 + rest.length = p + (c :: rest).length := by
            simp [List.length_cons]; omega
          rw [hlen] at hres
          refine ⟨le_refl _, by omega, by omega, by omega, by omega, by omega, hres⟩

/-- Spans of the tokens of a text are ordered and in bounds. -/
theorem tokensWithSpans_spansOK (s : Str) :
    SpansOK s.length 0 ((tokensWithSpans s).map (fun tok => (tok.2.1, tok.2.2))) := by
  have := tokScan_spansOK s 0 none (by intro s' acc h; cases h)
  simpa using this

theorem pySlice_same (s : Str) (p : Nat) : pySlice s p p = [] := by
  unfold pySlice
  apply List.drop_eq_nil_of_le
  rw [List.length_take]
  exact Nat.min_le_left _ _

theorem pySlice_nil_of_le (s : Str) {a b : Nat} (h : b ≤ a) : pySlice s a b = [] := by
  unfold pySlice
  apply List.drop_eq_nil_of_le
  rw [List.length_take]
  have := Nat.min_le_left b s.length
  omega

/-- Bounds for `span_for_token_range` under well-formed spans. -/
theorem span_for_token_range_bounds (spans : List (Nat × Nat)) (n i1 i2 : Nat)
    (hok : SpansOK n 0 spans) (h12 : i1 ≤ i2) (h2 : i2 ≤ spans.length) :
    (span_for_token_range spans i1 i2 n).1 ≤ (span_for_token_range spans i1 i2 n).2 ∧
      (span_for_token_range spans i1 i2 n).2 ≤ n := by
  unfold span_for_token_range
  split
  · simp
  · split
    · simp
    · rename_i hne hlen
      have hlen' : i1 < spans.length := by omega
      have hmem1 : spans.getD i1 (0, 0) ∈ spans := by
        rw [List.getD_eq_getElem spans (0, 0) hlen']
        exact List.getElem_mem _
      have hall1 := SpansOK_all hok _ hmem1
      split
      · exact ⟨le_refl _, by omega⟩
      · rename_i h12ne
        have h12' : i1 < i2 := by omega
        have hlen2 : i2 - 1 < spans.length := by omega
        have hmem2 : spans.getD (i2 - 1) (0, 0) ∈ spans := by
          rw [List.getD_eq_getElem spans (0, 0) hlen2]
          exact List.getElem_mem _
        have hall2 := SpansOK_all hok _ hmem2
        rcases Nat.lt_or_ge i1 (i2 - 1) with hlt | hge
        · have hpw := SpansOK_pairwise hok
          rw [List.pairwise_iff_get] at hpw
          have hsep : (spans.getD i1 (0, 0)).2 ≤ (spans.getD (i2 - 1) (0, 0)).1 := by
            have := hpw ⟨i1, hlen'⟩ ⟨i2 - 1, hlen2⟩ (by exact hlt)
            rw [List.getD_eq_getElem spans (0, 0) hlen',
              List.getD_eq_getElem spans (0, 0) hlen2]
            simpa [List.get_eq_getElem] using this
          have h1 := hall1.2.1
          have h2 := hall2.2.1
          have h3 := hall2.2.2
          exact ⟨by omega, h3⟩
        · have : i1 = i2 - 1 := by omega
          subst this
          exact ⟨hall1.2.1, hall2.2.2⟩

/-! ### Classification, sorting, grouping and dedup lemmas -/

/-- Whatever record the classifier accepts is well-formed with respect to
the normalized original text. -/
theorem classifyOp_wf (ot ct : Str) (ospans cspans : List (Nat × Nat))
    (op : Tag × Nat × Nat × Nat × Nat) (r : RawDiff)
    (hok : SpansOK ot.length 0 ospans)
    (h12 : op.2.1 ≤ op.2.2.1) (h2 : op.2.2.1 ≤ ospans.length)
    (h : classifyOp ot ct ospans cspans op = some r) :
    r.start ≤ r.stop ∧ r.stop ≤ ot.length ∧
      r.original = pySlice ot r.start r.stop ∧
      (r.type = Tag.insert → r.start = r.stop) ∧
      (r.type = Tag.delete → r.suggestion = []) := by
  rcases op with ⟨tag, i1, i2, j1, j2⟩
  simp only at h12 h2
  have hos := span_for_token_range_bounds ospans ot.length i1 i2 hok h12 h2
  simp only [classifyOp] at h
  split at h
  · cases h
  · split at h
    · cases h
    · split at h
      · cases h
      · split at h
        · split at h
          · cases h
            refine ⟨hos.1, hos.2, rfl, ?_, ?_⟩
            · intro hh; simp at hh
            · intro hh; simp at hh
          · cases h
        · split at h
          · split at h
            · cases h
              refine ⟨le_refl _, ?_,
                (pySlice_same ot _).symm, fun _ => rfl, ?_⟩
              · show (span_for_token_range ospans i1 i2 ot.length).1 ≤ ot.length
                have := hos.1
                have := hos.2
                omega
              intro hh; simp at hh
            · cases h
          · split at h
            · cases h
              refine ⟨hos.1, hos.2, rfl, ?_, fun _ => rfl⟩
              intro hh; simp at hh
            · cases h

/-- All raw diffs are well-formed with respect to the normalized original
text. -/
theorem rawDiffsOf_wf (ot ct : Str) :
    ∀ r ∈ rawDiffsOf ot ct,
      r.start ≤ r.stop ∧ r.stop ≤ ot.length ∧
      r.original = pySlice ot r.start r.stop ∧
      (r.type = Tag.insert → r.start = r.stop) ∧
      (r.type = Tag.delete → r.suggestion = []) := by
  intro r hr
  unfold rawDiffsOf at hr
  rw [List.mem_filterMap] at hr
  obtain ⟨op, hop, hcl⟩ := hr
  have hblocks := get_matching_blocks_ok ((tokensWithSpans ot).map (·.1))
    ((tokensWithSpans ct).map (·.1))
  unfold get_opcodes at hop
  have hbounds := opcodesAux_mem_bounds hblocks op hop
  apply classifyOp_wf ot ct _ _ op r (tokensWithSpans_spansOK ot)
  · exact hbounds.2.1
  · rw [List.length_map]
    have := hbounds.2.2.1
    rw [List.length_map] at this
    exact this
  · exact hcl

theorem insortBy_perm (le : RawDiff → RawDiff → Bool) (x : RawDiff) :
    ∀ l : List RawDiff, (insortBy le x l).Perm (x :: l) := by
  intro l
  induction l with
  | nil => exact List.Perm.refl _
  | cons y ys ih =>
    simp only [insortBy]
    split
    · exact List.Perm.refl _
    · exact ((ih.cons y).trans (List.Perm.swap x y ys))

theorem sortRaw_perm : ∀ l : List RawDiff, (sortRaw l).Perm l := by
  intro l
  induction l with
  | nil => exact List.Perm.refl _
  | cons x xs ih =>
    simp only [sortRaw]
    exact (insortBy_perm rawLe x (sortRaw xs)).trans (ih.cons x)

theorem rawLe_total (x y : RawDiff) : rawLe x y = true ∨ rawLe y x = true := by
  simp only [rawLe, Bool.or_eq_true, Bool.and_eq_true, decide_eq_true_eq]
  omega

theorem rawLe_trans {x y z : RawDiff} (h1 : rawLe x y = true) (h2 : rawLe y z = true) :
    rawLe x z = true := by
  simp only [rawLe, Bool.or_eq_true, Bool.and_eq_true, decide_eq_true_eq] at h1 h2 ⊢
  omega

theorem insortBy_sorted (x : RawDiff) :
    ∀ l : List RawDiff, List.Pairwise (fun a b => rawLe a b = true) l →
      List.Pairwise (fun a b => rawLe a b = true) (insortBy rawLe x l) := by
  intro l
  induction l with
  | nil => intro _; simp [insortBy]
  | cons y ys ih =>
    intro hl
    rw [List.pairwise_cons] at hl
    simp only [insortBy]
    split
    · rename_i hxy
      rw [List.pairwise_cons]
      refine ⟨?_, List.pairwise_cons.mpr hl⟩
      intro z hz
      rcases List.mem_cons.mp hz with rfl | hz'
      · exact hxy
      · exact rawLe_trans hxy (hl.1 z hz')
    · rename_i hxy
      rw [List.pairwise_cons]
      refine ⟨?_, ih hl.2⟩
      intro z hz
      have hz2 := (insortBy_perm rawLe x ys).mem_iff.mp hz
      rcases List.mem_cons.mp hz2 with rfl | hz'
      · rcases rawLe_total z y with h | h
        · exact absurd h hxy
        · exact h
      · exact hl.1 z hz'

theorem sortRaw_sorted : ∀ l : List RawDiff,
    List.Pairwise (fun a b => rawLe a b = true) (sortRaw l) := by
  intro l
  induction l with
  | nil => simp [sortRaw]
  | cons x xs ih => exact insortBy_sorted x (sortRaw xs) ih

/-- Invariant of the grouping loop: starting from a non-empty reversed
accumulator whose records are well-formed and strictly separated, folding
the remaining (sorted, well-formed) diffs yields a non-empty reversed list
of well-formed, strictly separated records. -/
theorem group_fold_ok (ot ct : Str) :
    ∀ (rest : List RawDiff) (a0 : RawDiff) (t : List RawDiff),
      (∀ r ∈ a0 :: t, r.start ≤ r.stop ∧ r.stop ≤ ot.length ∧
        r.original = pySlice ot r.start r.stop ∧
        (r.type = Tag.insert → r.start = r.stop) ∧
        (r.type = Tag.delete → r.suggestion = [])) →
      List.Chain' (fun x y => y.stop < x.start) (a0 :: t) →
      (∀ d ∈ rest, a0.start ≤ d.start) →
      List.Pairwise (fun x y => x.start ≤ y.start) rest →
      (∀ d ∈ rest, d.start ≤ d.stop ∧ d.stop ≤ ot.length ∧
        d.original = pySlice ot d.start d.stop ∧
        (d.type = Tag.insert → d.start = d.stop) ∧
        (d.type = Tag.delete → d.suggestion = [])) →
      ∃ b0 t', rest.foldl (groupStep ot ct) (a0 :: t) = b0 :: t' ∧
        (∀ r ∈ b0 :: t', r.start ≤ r.stop ∧ r.stop ≤ ot.length ∧
          r.original = pySlice ot r.start r.stop ∧
          (r.type = Tag.insert → r.start = r.stop) ∧
          (r.type = Tag.delete → r.suggestion = [])) ∧
        List.Chain' (fun x y => y.stop < x.start) (b0 :: t') := by
  intro rest
  induction rest with
  | nil =>
    intro a0 t hwf hchain _ _ _
    exact ⟨a0, t, rfl, hwf, hchain⟩
  | cons d rest' ih =>
    intro a0 t hwf hchain hle hsorted hwfrest
    have hd := hwfrest d (List.mem_cons_self _ _)
    have ha0 := hwf a0 (List.mem_cons_self _ _)
    have ha0d : a0.start ≤ d.start := hle d (List.mem_cons_self _ _)
    rw [List.foldl_cons]
    have hstep : groupStep ot ct (a0 :: t) d =
        (if pyStrip (pySlice ot a0.stop d.start) = [] ∧ d.start ≤ a0.stop + 2 then
          ({ type := Tag.replace, start := min a0.start d.start,
             stop := max a0.stop d.stop,
             original := pySlice ot (min a0.start d.start) (max a0.stop d.stop),
             suggestion := pySlice ct (min a0.cStart d.cStart) (max a0.cStop d.cStop),
             cStart := min a0.cStart d.cStart, cStop := max a0.cStop d.cStop } : RawDiff) :: t
        else d :: a0 :: t) := rfl
    rw [hstep]
    split
    · rename_i hcond
      set m : RawDiff :=
        { type := Tag.replace, start := min a0.start d.start,
          stop := max a0.stop d.stop,
          original := pySlice ot (min a0.start d.start) (max a0.stop d.stop),
          suggestion := pySlice ct (min a0.cStart d.cStart) (max a0.cStop d.cStop),
          cStart := min a0.cStart d.cStart, cStop := max a0.cStop d.cStop } with hm
      have hmstart : m.start = a0.start := by
        show min a0.start d.start = a0.start
        omega
      have hmwf : m.start ≤ m.stop ∧ m.stop ≤ ot.length ∧
          m.original = pySlice ot m.start m.stop ∧
          (m.type = Tag.insert → m.start = m.stop) ∧
          (m.type = Tag.delete → m.suggestion = []) := by
        refine ⟨?_, ?_, rfl, ?_, ?_⟩
        · show min a0.start d.start ≤ max a0.stop d.stop
          have h1 := ha0.1
          have h2 := hd.1
          omega
        · show max a0.stop d.stop ≤ ot.length
          have h1 := ha0.2.1
          have h2 := hd.2.1
          omega
        · intro hh
          rw [hm] at hh
          simp at hh
        · intro hh
          rw [hm] at hh
          simp at hh
      apply ih m t
      · intro r hr
        rcases List.mem_cons.mp hr with rfl | hr'
        · exact hmwf
        · exact hwf r (List.mem_cons_of_mem _ hr')
      · cases t with
        | nil => simp
        | cons t0 t'' =>
          rw [List.chain'_cons] at hchain ⊢
          exact ⟨by rw [hmstart]; exact hchain.1, hchain.2⟩
      · intro d' hd'
        rw [hmstart]
        exact le_trans ha0d ((List.pairwise_cons.mp hsorted).1 d' hd')
      · exact (List.pairwise_cons.mp hsorted).2
      · intro d' hd'
        exact hwfrest d' (List.mem_cons_of_mem _ hd')
    · rename_i hcond
      have hsep : a0.stop < d.start := by
        by_contra hnot
        apply hcond
        constructor
        · rw [pySlice_nil_of_le ot (by omega)]
          rfl
        · omega
      apply ih d (a0 :: t)
      · intro r hr
        rcases List.mem_cons.mp hr with rfl | hr'
        · exact hd
        · exact hwf r hr'
      · rw [List.chain'_cons]
        exact ⟨hsep, hchain⟩
      · intro d' hd'
        exact (List.pairwise_cons.mp hsorted).1 d' hd'
      · exact (List.pairwise_cons.mp hsorted).2
      · intro d' hd'
        exact hwfrest d' (List.mem_cons_of_mem _ hd')

theorem dedupe_sublist :
    ∀ (l : List RawDiff) (seen : List (Nat × Nat × Str)),
      (dedupe l seen).Sublist (l.map projRecord) := by
  intro l
  induction l with
  | nil => intro seen; simp [dedupe]
  | cons d rest ih =>
    intro seen
    simp only [dedupe, List.map_cons]
    split
    · exact (ih seen).cons _
    · exact (ih _).cons₂ _

theorem dedupe_mem {l : List RawDiff} {seen : List (Nat × Nat × Str)} {r : EditRecord}
    (h : r ∈ dedupe l seen) : ∃ d ∈ l, r = projRecord d := by
  have := (dedupe_sublist l seen).subset h
  rw [List.mem_map] at this
  obtain ⟨d, hd, hEq⟩ := this
  exact ⟨d, hd, hEq.symm⟩

/-- Records returned by the diff engine are well-formed: valid spans into
the normalized original, the original substring at the span, `start = end`
for inserts and an empty suggestion for deletes. -/
theorem find_differences_mem_wf (o s : Str) :
    ∀ r ∈ find_differences_charwise o s,
      r.start ≤ r.stop ∧ r.stop ≤ (normalizeText o).length ∧
      r.original = pySlice (normalizeText o) r.start r.stop ∧
      (r.type = Tag.insert → r.start = r.stop) ∧
      (r.type = Tag.delete → r.suggestion = []) := by
  intro r hr
  unfold find_differences_charwise at hr
  split at hr
  · cases hr
  · split at hr
    · cases hr
    · rename_i d0 rest heq
      obtain ⟨d, hd, rfl⟩ := dedupe_mem hr
      unfold groupRaw at hd
      rw [List.mem_reverse] at hd
      have hsorted := sortRaw_sorted (rawDiffsOf (normalizeText o) (normalizeText s))
      rw [heq] at hsorted
      have hmemsort : ∀ x ∈ d0 :: rest,
          x ∈ rawDiffsOf (normalizeText o) (normalizeText s) := by
        intro x hx
        rw [← heq] at hx
        exact (sortRaw_perm _).subset hx
      have hfold := group_fold_ok (normalizeText o) (normalizeText s) rest d0 []
        (by
          intro x hx
          rcases List.mem_cons.mp hx with rfl | hx'
          · exact rawDiffsOf_wf _ _ x (hmemsort x (List.mem_cons_self _ _))
          · cases hx')
        (by simp)
        (by
          intro x hx
          have := (List.pairwise_cons.mp hsorted).1 x hx
          simp only [rawLe, Bool.or_eq_true, Bool.and_eq_true, decide_eq_true_eq] at this
          omega)
        (by
          have := (List.pairwise_cons.mp hsorted).2
          apply List.Pairwise.imp _ this
          intro x y hxy
          simp only [rawLe, Bool.or_eq_true, Bool.and_eq_true, decide_eq_true_eq] at hxy
          omega)
        (by
          intro x hx
          exact rawDiffsOf_wf _ _ x (hmemsort x (List.mem_cons_of_mem _ hx)))
      obtain ⟨b0, t', hfe, hwf, _⟩ := hfold
      rw [hfe] at hd
      have := hwf d hd
      simp only [projRecord]
      exact this

/-- Records returned by the diff engine are strictly separated and sorted:
each record ends before the next one starts. -/
theorem find_differences_pairwise (o s : Str) :
    List.Pairwise (fun x y => x.stop < y.start ∧ x.stop ≤ y.stop)
      (find_differences_charwise o s) := by
  unfold find_differences_charwise
  split
  · simp
  · split
    · simp
    · rename_i d0 rest heq
      have hsorted := sortRaw_sorted (rawDiffsOf (normalizeText o) (normalizeText s))
      rw [heq] at hsorted
      have hmemsort : ∀ x ∈ d0 :: rest,
          x ∈ rawDiffsOf (normalizeText o) (normalizeText s) := by
        intro x hx
        rw [← heq] at hx
        exact (sortRaw_perm _).subset hx
      have hfold := group_fold_ok (normalizeText o) (normalizeText s) rest d0 []
        (by
          intro x hx
          rcases List.mem_cons.mp hx with rfl | hx'
          · exact rawDiffsOf_wf _ _ x (hmemsort x (List.mem_cons_self _ _))
          · cases hx')
        (by simp)
        (by
          intro x hx
          have := (List.pairwise_cons.mp hsorted).1 x hx
          simp only [rawLe, Bool.or_eq_true, Bool.and_eq_true, decide_eq_true_eq] at this
          omega)
        (by
          have := (List.pairwise_cons.mp hsorted).2
          apply List.Pairwise.imp _ this
          intro x y hxy
          simp only [rawLe, Bool.or_eq_true, Bool.and_eq_true, decide_eq_true_eq] at hxy
          omega)
        (by
          intro x hx
          exact rawDiffsOf_wf _ _ x (hmemsort x (List.mem_cons_of_mem _ hx)))
      obtain ⟨b0, t', hfe, hwf, hchain⟩ := hfold
      unfold groupRaw
      rw [hfe]
      have hchainrev : List.Chain' (fun x y => x.stop < y.start) (b0 :: t').reverse := by
        rw [List.chain'_reverse]
        apply List.Chain'.imp _ hchain
        intro x y hxy
        exact hxy
      have hpw : List.Pairwise (fun x y => x.stop < y.start ∧ x.stop ≤ y.stop)
          ((b0 :: t').reverse) := by
        have hwfrev : ∀ x ∈ (b0 :: t').reverse, x.start ≤ x.stop := by
          intro x hx
          rw [List.mem_reverse] at hx
          exact (hwf x hx).1
        clear hchain hfe hwf
        generalize (b0 :: t').reverse = L at hchainrev hwfrev
        induction L with
        | nil => simp
        | cons x xs ihL =>
          rw [List.pairwise_cons]
          have htail := ihL hchainrev.tail
            (fun y hy => hwfrev y (List.mem_cons_of_mem _ hy))
          refine ⟨?_, htail⟩
          intro y hy
          cases xs with
          | nil => cases hy
          | cons x1 xs' =>
            rw [List.chain'_cons] at hchainrev
            have hx1 : x.stop < x1.start := hchainrev.1
            have hx1wf : x1.start ≤ x1.stop :=
              hwfrev x1 (List.mem_cons_of_mem _ (List.mem_cons_self _ _))
            rcases List.mem_cons.mp hy with rfl | hy'
            · exact ⟨hx1, by omega⟩
            · have := (List.pairwise_cons.mp htail).1 y hy'
              exact ⟨by omega, by omega⟩
      have hpwmap : List.Pairwise (fun x y => x.stop < y.start ∧ x.stop ≤ y.stop)
          (((b0 :: t').reverse).map projRecord) := by
        rw [List.pairwise_map]
        exact hpw
      exact List.Pairwise.sublist (dedupe_sublist ((b0 :: t').reverse) []) hpwmap

/-- Diffing a text against itself produces no raw diffs: the opcode walk of
two equal token lists yields at most one `equal` opcode, which the
classifier drops. -/
theorem rawDiffsOf_self (t : Str) : rawDiffsOf t t = [] := by
  unfold rawDiffsOf
  rw [get_opcodes_self]
  split
  · rfl
  · simp [classifyOp]

/-- Raw diffs against an empty suggestion: at most one, and it is a small
or punctuation-only delete. -/
theorem rawDiffsOf_empty_corr (ot : Str) :
    (∀ x ∈ rawDiffsOf ot [],
        x.type = Tag.delete ∧ x.suggestion = [] ∧
          (is_pure_punct x.original = true ∨ (pyStrip x.original).length ≤ 2)) ∧
      (rawDiffsOf ot []).length ≤ 1 := by
  unfold rawDiffsOf
  rw [show tokensWithSpans ([] : Str) = [] from rfl]
  simp only [List.map_nil]
  rw [get_opcodes_nil_right]
  split
  · simp
  · constructor
    · intro x hx
      rw [List.mem_filterMap] at hx
      obtain ⟨op, hop, hcl⟩ := hx
      simp only [List.mem_singleton] at hop
      subst hop
      simp only [classifyOp] at hcl
      split at hcl
      · cases hcl
      · split at hcl
        · cases hcl
        · split at hcl
          · cases hcl
          · split at hcl
            · rename_i hbad
              simp at hbad
            · split at hcl
              · rename_i hbad
                simp at hbad
              · split at hcl
                · rename_i hcond
                  cases hcl
                  exact ⟨rfl, rfl, hcond.2⟩
                · cases hcl
    · calc (List.filterMap _ [(Tag.delete, 0, _, 0, 0)]).length ≤ _ :=
            List.length_filterMap_le _ _
        _ ≤ 1 := by simp

/-! ### Single-word characterization lemmas (for the replace policy) -/

theorem isWordChar_of_isLetterChar {c : Char} (h : isLetterChar c = true) :
    isWordChar c = true := by
  simp [isWordChar, h]

theorem ne_cr_of_isLetterChar {c : Char} (h : isLetterChar c = true) : c ≠ '\r' := by
  intro heq
  rw [heq] at h
  exact absurd h (by decide)

/-- A string without carriage returns is untouched by the newline
replacement. -/
theorem normNewlines_of_no_cr : ∀ (l : Str), (∀ c ∈ l, c ≠ '\r') → normNewlines l = l
  | [], _ => rfl
  | [c], h => by
    simp only [normNewlines]
    rw [if_neg (h c (List.mem_cons_self _ _))]
  | c :: d :: rest, h => by
    simp only [normNewlines]
    rw [if_neg (h c (List.mem_cons_self _ _))]
    rw [normNewlines_of_no_cr (d :: rest) (fun x hx => h x (List.mem_cons_of_mem _ hx))]

/-- Scanning a pure word-character run extends the pending token to the
end. -/
theorem tokScan_word_run :
    ∀ (l : Str), l.all isWordChar = true → ∀ (p s : Nat) (acc : List Char),
      tokScan l p (some (s, acc)) =
        [(acc.reverse ++ l, s, s + acc.length + l.length)] := by
  intro l
  induction l with
  | nil =>
    intro _ p s acc
    simp [tokScan]
  | cons c rest ih =>
    intro hall p s acc
    rw [List.all_cons, Bool.and_eq_true] at hall
    simp only [tokScan]
    rw [if_pos hall.1, ih hall.2 (p + 1) s (c :: acc)]
    simp [List.length_cons]
    omega

/-- A non-empty all-word-character string is one single token spanning the
whole text. -/
theorem tokensWithSpans_word (w : Str) (hw : w.all isWordChar = true) (hne : w ≠ []) :
    tokensWithSpans w = [(w, 0, w.length)] := by
  cases w with
  | nil => exact absurd rfl hne
  | cons c rest =>
    rw [List.all_cons, Bool.and_eq_true] at hw
    unfold tokensWithSpans
    simp only [tokScan]
    rw [if_pos hw.1, tokScan_word_run rest hw.2 1 0 [c]]
    simp [List.length_cons]
    omega

theorem pySlice_full (l : Str) : pySlice l 0 l.length = l := by
  unfold pySlice
  rw [List.take_length, List.drop_zero]

/-- Two distinct single tokens align as one 1-to-1 replace opcode. -/
theorem get_opcodes_single_ne {α : Type} [DecidableEq α] (x y : α) (hxy : x ≠ y) :
    get_opcodes [x] [y] = [(Tag.replace, 0, 1, 0, 1)] := by
  have hml : matchLen [x] [y] 0 0 1 1 = 0 := by
    simp [matchLen, commonRun, hxy]
  have hflm : find_longest_match [x] [y] 0 1 0 1 = (0, 0, 0) := by
    unfold find_longest_match candidatePairs
    simp only [Nat.sub_zero]
    rw [show List.range' 0 1 = [0] from rfl]
    simp only [List.flatMap_cons, List.map_cons, List.map_nil, List.flatMap_nil,
      List.append_nil, List.foldl_cons, List.foldl_nil]
    unfold flmStep
    simp [hml]
  have hraw : matchingBlocksAux [x] [y] 3 0 1 0 1 = [] := by
    rw [show (3 : Nat) = 2 + 1 from rfl]
    simp only [matchingBlocksAux, hflm]
    rfl
  unfold get_opcodes get_matching_blocks
  simp only [List.length_cons, List.length_nil, Nat.zero_add]
  rw [show (1 : Nat) + 1 + 1 = 3 from rfl, hraw]
  decide

/-! ### Word-projection lemmas (for `project_safe_word_corrections`) -/

theorem pySlice_eq_drop_take (t : Str) (s e : Nat) :
    pySlice t s e = (t.drop s).take (e - s) := by
  unfold pySlice
  rw [List.drop_take]

theorem is_small_word_edit_refl (w : Str) : is_small_word_edit w w = true := by
  simp [is_small_word_edit]

/-- The word content of a scan state, as the stateless `wordsAux`. -/
theorem wordScan_map_fst :
    ∀ (l : Str) (p : Nat) (pend : Option (Nat × List Char)),
      (∀ s acc, pend = some (s, acc) → acc ≠ []) →
      (wordScan l p pend).map (·.1) =
        wordsAux l (match pend with | none => [] | some (_, acc) => acc) := by
  intro l
  induction l with
  | nil =>
    intro p pend hp
    cases pend with
    | none => rfl
    | some sa =>
      rcases sa with ⟨s, acc⟩
      simp only [wordScan, List.map_cons, List.map_nil, wordsAux]
      rw [if_neg (by simp [List.isEmpty_iff]; exact hp s acc rfl)]
  | cons c rest ih =>
    intro p pend hp
    cases pend with
    | none =>
      simp only [wordScan, wordsAux]
      by_cases hc : isLetterChar c
      · rw [if_pos hc, if_pos hc, ih (p + 1) (some (p, [c])) (by intro s acc h; cases h; simp)]
      · rw [if_neg hc, if_neg hc, ih (p + 1) none (by intro s acc h; cases h)]
        simp
    | some sa =>
      rcases sa with ⟨s, acc⟩
      simp only [wordScan, wordsAux]
      by_cases hc : isLetterChar c
      · rw [if_pos hc, if_pos hc,
          ih (p + 1) (some (s, c :: acc)) (by intro s' acc' h; cases h; simp)]
      · rw [if_neg hc, if_neg hc]
        simp only [List.map_cons]
        rw [ih (p + 1) none (by intro s' acc' h; cases h)]
        rw [if_neg (by simp [List.isEmpty_iff]; exact hp s acc rfl)]
        rfl

theorem extract_words_eq_wordsAux (t : Str) : extract_words t = wordsAux t [] :=
  wordScan_map_fst t 0 none (by intro s acc h; cases h)

/-- Splitting `wordsAux` at a non-letter character. -/
theorem isEmpty_false_of_ne {A : Type} {l : List A} (h : l ≠ []) : l.isEmpty = false := by
  cases l with
  | nil => exact absurd rfl h
  | cons x xs => rfl

theorem wordsAux_break (y : Str) (c : Char) (hc : isLetterChar c = false) :
    ∀ (x : Str) (acc : List Char),
      wordsAux (x ++ c :: y) acc = wordsAux (x ++ [c]) acc ++ wordsAux y [] := by
  intro x
  induction x with
  | nil =>
    intro acc
    simp only [List.nil_append, wordsAux, hc, Bool.false_eq_true, if_false]
    split <;> simp [wordsAux]
  | cons d x' ih =>
    intro acc
    simp only [List.cons_append, wordsAux, List.append_eq]
    split
    · exact ih (d :: acc)
    · rw [show x' ++ (c :: y) = x' ++ c :: y from rfl, ih []]
      rw [List.append_assoc]

/-- A leading all-letter run with a non-letter (or empty) continuation is
one word. -/
theorem wordsAux_word_head (y : Str)
    (hy : y = [] ∨ isLetterChar (y.headD ' ') = false) :
    ∀ (w : Str) (acc : List Char), w.all isLetterChar = true →
      (acc ≠ [] ∨ w ≠ []) →
      wordsAux (w ++ y) acc = (acc.reverse ++ w) :: wordsAux y [] := by
  intro w
  induction w with
  | nil =>
    intro acc _ hne
    have hacc : acc ≠ [] := by
      rcases hne with h | h
      · exact h
      · exact absurd rfl h
    cases y with
    | nil =>
      simp [wordsAux, isEmpty_false_of_ne hacc]
    | cons d y' =>
      rcases hy with h | h
      · cases h
      · simp only [List.headD_cons] at h
        simp [wordsAux, isEmpty_false_of_ne hacc, h]
  | cons ch w' ih =>
    intro acc hall hne
    rw [List.all_cons, Bool.and_eq_true] at hall
    simp only [List.cons_append, wordsAux, if_pos hall.1, hall.1, if_true]
    rw [show w'.append y = w' ++ y from rfl, ih (ch :: acc) hall.2 (Or.inl (by simp))]
    simp

theorem drop_cons_facts {t : Str} {p : Nat} {c : Char} {rest : Str}
    (h : t.drop p = c :: rest) :
    p < t.length ∧ t.drop (p + 1) = rest ∧ t.getD p ' ' = c := by
  have hlt : p < t.length := by
    by_contra hnot
    rw [List.drop_eq_nil_of_le (by omega)] at h
    cases h
  refine ⟨hlt, ?_, ?_⟩
  · rw [← List.tail_drop, h]
    rfl
  · rw [List.getD_eq_getElem t ' ' hlt]
    have h0 : (t.drop p)[0]? = t[p]? := by
      rw [List.getElem?_drop, Nat.add_zero]
    rw [h] at h0
    simp only [List.getElem?_cons_zero] at h0
    rw [List.getElem?_eq_getElem hlt] at h0
    exact (Option.some.injEq _ _ ▸ h0.symm :)

theorem pySlice_snoc {t : Str} {p : Nat} {c : Char} {rest : Str}
    (h : t.drop p = c :: rest) {s : Nat} (hs : s ≤ p) :
    pySlice t s (p + 1) = pySlice t s p ++ [c] := by
  rw [pySlice_eq_drop_take, pySlice_eq_drop_take]
  have h1 : p + 1 - s = (p - s) + 1 := by omega
  rw [h1, List.take_succ]
  have h2 : (t.drop s)[p - s]? = t[p]? := by
    rw [List.getElem?_drop]
    congr 1
    omega
  have h3 : t[p]? = some c := by
    have h0 : (t.drop p)[0]? = t[p]? := by
      rw [List.getElem?_drop, Nat.add_zero]
    rw [h] at h0
    simpa using h0.symm
  rw [h2, h3]
  rfl

theorem pySlice_singleton {t : Str} {p : Nat} {c : Char} {rest : Str}
    (h : t.drop p = c :: rest) : pySlice t p (p + 1) = [c] := by
  have := pySlice_snoc h (le_refl p)
  rw [pySlice_same] at this
  simpa using this

/-- Full soundness of the `WORD_RE` scanner, relative to the complete text
`t` (the scan state is characterized by the standard invariants). -/
theorem wordScan_sound_aux (t : Str) :
    ∀ (l : Str) (p : Nat) (pend : Option (Nat × List Char)),
      t.drop p = l → p ≤ t.length →
      (∀ s acc, pend = some (s, acc) →
        s + acc.length = p ∧ acc ≠ [] ∧ acc.reverse = pySlice t s p ∧
        (∀ ch ∈ acc, isLetterChar ch = true) ∧
        (s = 0 ∨ isLetterChar (t.getD (s - 1) ' ') = false)) →
      (pend = none → p = 0 ∨ isLetterChar (t.getD (p - 1) ' ') = false) →
      ∀ x ∈ wordScan l p pend, WordTokOK t x := by
  intro l
  induction l with
  | nil =>
    intro p pend hdrop hple hpend _ x hx
    cases pend with
    | none => cases hx
    | some sa =>
      rcases sa with ⟨s, acc⟩
      obtain ⟨hsum, hne, hrev, hlet, hleft⟩ := hpend s acc rfl
      simp only [wordScan, List.mem_singleton] at hx
      subst hx
      have hplen : p = t.length := by
        have := List.drop_eq_nil_iff.mp hdrop
        omega
      refine ⟨?_, ?_, ?_, ?_, ?_, ?_⟩
      · show acc.reverse = pySlice t s (s + acc.length)
        rw [hsum, hrev]
      · show s < s + acc.length
        have := List.length_pos.mpr hne
        omega
      · show s + acc.length ≤ t.length
        omega
      · show acc.reverse.all isLetterChar = true
        rw [List.all_eq_true]
        intro ch hch
        exact hlet ch (List.mem_reverse.mp hch)
      · exact hleft
      · left
        show s + acc.length = t.length
        omega
  | cons c rest ih =>
    intro p pend hdrop hple hpend hnone x hx
    obtain ⟨hp1, hdrop1, hget⟩ := drop_cons_facts hdrop
    cases pend with
    | none =>
      simp only [wordScan] at hx
      by_cases hc : isLetterChar c
      · rw [if_pos hc] at hx
        apply ih (p + 1) (some (p, [c])) hdrop1 (by omega) _ (by intro h; cases h) x hx
        intro s acc heq
        cases heq
        refine ⟨by simp, by simp, ?_, ?_, ?_⟩
        · simp [pySlice_singleton hdrop]
        · intro ch hch
          simp only [List.mem_singleton] at hch
          subst hch
          exact hc
        · simpa using hnone rfl
      · rw [if_neg hc] at hx
        apply ih (p + 1) none hdrop1 (by omega) (by intro s acc h; cases h) _ x hx
        intro _
        right
        simp only [Nat.add_sub_cancel]
        rw [hget]
        exact Bool.not_eq_true _ ▸ hc
    | some sa =>
      rcases sa with ⟨s, acc⟩
      obtain ⟨hsum, hne, hrev, hlet, hleft⟩ := hpend s acc rfl
      simp only [wordScan] at hx
      by_cases hc : isLetterChar c
      · rw [if_pos hc] at hx
        apply ih (p + 1) (some (s, c :: acc)) hdrop1 (by omega) _ (by intro h; cases h) x hx
        intro s' acc' heq
        cases heq
        refine ⟨by simp [List.length_cons]; omega, by simp, ?_, ?_, hleft⟩
        · rw [List.reverse_cons, hrev]
          exact (pySlice_snoc hdrop (by omega)).symm
        · intro ch hch
          rcases List.mem_cons.mp hch with rfl | hch'
          · exact hc
          · exact hlet ch hch'
      · rw [if_neg hc] at hx
        rcases List.mem_cons.mp hx with rfl | hx'
        · refine ⟨?_, ?_, ?_, ?_, hleft, ?_⟩
          · show acc.reverse = pySlice t s (s + acc.length)
            rw [hsum, hrev]
          · show s < s + acc.length
            have := List.length_pos.mpr hne
            omega
          · show s + acc.length ≤ t.length
            omega
          · rw [List.all_eq_true]
            intro ch hch
            exact hlet ch (List.mem_reverse.mp hch)
          · right
            show isLetterChar (t.getD (s + acc.length) ' ') = false
            rw [hsum, hget]
            exact Bool.not_eq_true _ ▸ hc
        · apply ih (p + 1) none hdrop1 (by omega) (by intro s' acc' h; cases h) _ x hx'
          intro _
          right
          simp only [Nat.add_sub_cancel]
          rw [hget]
          exact Bool.not_eq_true _ ▸ hc

/-- Soundness of `WORD_RE.finditer`: every match is a maximal letter run at
its recorded span. -/
theorem wordScan_sound (t : Str) : ∀ x ∈ wordScan t 0 none, WordTokOK t x := by
  intro x hx
  exact wordScan_sound_aux t t 0 none (by rfl) (Nat.zero_le _)
    (by intro s acc h; cases h) (fun _ => Or.inl rfl) x hx

/-- The word scanner produces ordered in-bounds spans. -/
theorem wordScan_spansOK :
    ∀ (l : Str) (p : Nat) (pend : Option (Nat × List Char)),
      (∀ s acc, pend = some (s, acc) → s + acc.length = p) →
      SpansOK (p + l.length)
        (match pend with | none => p | some (s, _) => s)
        ((wordScan l p pend).map (fun tok => (tok.2.1, tok.2.2))) := by
  intro l
  induction l with
  | nil =>
    intro p pend hp
    cases pend with
    | none => simp only [wordScan, List.map_nil]; trivial
    | some sa =>
      rcases sa with ⟨s, acc⟩
      have := hp s acc rfl
      simp only [wordScan, List.map_cons, List.map_nil, SpansOK, and_true]
      refine ⟨le_refl _, by omega, by omega⟩
  | cons c rest ih =>
    intro p pend hp
    cases pend with
    | none =>
      simp only [wordScan]
      by_cases hc : isLetterChar c
      · rw [if_pos hc]
        have hres := ih (p + 1) (some (p, [c])) (by intro s acc h; cases h; rfl)
        simp only at hres
        have hlen : p + 1 + rest.length = p + (c :: rest).length := by
          simp [List.length_cons]; omega
        rw [hlen] at hres
        exact hres
      · rw [if_neg hc]
        have hres := ih (p + 1) none (by intro s acc h; cases h)
        simp only at hres
        have hlen : p + 1 + rest.length = p + (c :: rest).length := by
          simp [List.length_cons]; omega
        rw [hlen] at hres
        exact SpansOK_mono hres (by omega)
    | some sa =>
      rcases sa with ⟨s, acc⟩
      have hinv := hp s acc rfl
      simp only [wordScan]
      by_cases hc : isLetterChar c
      · rw [if_pos hc]
        have hres := ih (p + 1) (some (s, c :: acc))
          (by intro s' acc' h; cases h; simp [List.length_cons]; omega)
        simp only at hres
        have hlen : p + 1 + rest.length = p + (c :: rest).length := by
          simp [List.length_cons]; omega
        rw [hlen] at hres
        exact hres
      · rw [if_neg hc]
        simp only [List.map_cons, SpansOK]
        have hres := ih (p + 1) none (by intro s' acc' h; cases h)
        simp only at hres
        have hlen : p + 1 + rest.length = p + (c :: rest).length := by
          simp [List.length_cons]; omega
        rw [hlen] at hres
        refine ⟨le_refl _, by omega, by omega, SpansOK_mono hres (by omega)⟩

/-- Word matches are ordered: each ends at or before the next begins. -/
theorem wordScan_pairwise (t : Str) :
    List.Pairwise (fun x y => x.2.2 ≤ y.2.1) (wordScan t 0 none) := by
  have h := wordScan_spansOK t 0 none (by intro s acc h; cases h)
  simp only [Nat.zero_add] at h
  have := SpansOK_pairwise h
  rw [List.pairwise_map] at this
  exact this

theorem SpansBelow_all :
    ∀ {n : Nat} {l : List (Nat × Nat × Str)}, SpansBelow n l →
      ∀ r ∈ l, r.1 < r.2.1 ∧ r.2.1 ≤ n := by
  intro n l
  induction l generalizing n with
  | nil => intro _ r hr; cases hr
  | cons x rest ih =>
    rcases x with ⟨s, e, b⟩
    intro h r hr
    simp only [SpansBelow] at h
    rcases List.mem_cons.mp hr with rfl | hr'
    · exact ⟨h.1, h.2.1⟩
    · have := ih h.2.2 r hr'
      exact ⟨this.1, by omega⟩

theorem SpansBelow_mono {n m : Nat} {l : List (Nat × Nat × Str)}
    (h : SpansBelow n l) (hnm : n ≤ m) : SpansBelow m l := by
  cases l with
  | nil => trivial
  | cons x rest =>
    rcases x with ⟨s, e, b⟩
    simp only [SpansBelow] at h ⊢
    exact ⟨h.1, by omega, h.2.2⟩

theorem applyReps_frozen_suffix (y : Str) :
    ∀ (reps : List (Nat × Nat × Str)) (x : Str), SpansBelow x.length reps →
      applyReps (x ++ y) reps = applyReps x reps ++ y := by
  intro reps
  induction reps with
  | nil => intro x _; rfl
  | cons r rest ih =>
    rcases r with ⟨s, e, b⟩
    intro x hsb
    simp only [SpansBelow] at hsb
    have hsplice : splice (x ++ y) (s, e, b) = splice x (s, e, b) ++ y := by
      unfold splice
      simp only
      rw [List.take_append_of_le_length (by omega),
        List.drop_append_of_le_length (by omega)]
      simp [List.append_assoc]
    show applyReps (splice (x ++ y) (s, e, b)) rest = applyReps (splice x (s, e, b)) rest ++ y
    rw [hsplice]
    apply ih
    apply SpansBelow_mono hsb.2.2
    unfold splice
    simp only [List.length_append, List.length_take]
    omega

theorem SpansBelow_zero {l : List (Nat × Nat × Str)} (h : SpansBelow 0 l) : l = [] := by
  cases l with
  | nil => rfl
  | cons x rest =>
    rcases x with ⟨s, e, b⟩
    simp only [SpansBelow] at h
    omega

theorem pySlice_length (o : Str) {s e : Nat} (he : e ≤ o.length) :
    (pySlice o s e).length = e - s := by
  unfold pySlice
  rw [List.length_drop, List.length_take]
  omega

theorem take_decomp (t : Str) {s : Nat} (h1 : 1 ≤ s) (h2 : s ≤ t.length) :
    t.take s = t.take (s - 1) ++ [t.getD (s - 1) ' '] := by
  have hs : s = (s - 1) + 1 := by omega
  rw [List.getD_eq_getElem t ' ' (by omega)]
  conv =>
    left
    rw [hs]
  rw [List.take_succ, List.getElem?_eq_getElem (by omega : s - 1 < t.length)]
  rfl

/-- Decomposition of the word list at a maximal letter run `[s, e)`. -/
theorem words_split (o : Str) (s e : Nat) (h : s < e) (hlen : e ≤ o.length)
    (hslice : (pySlice o s e).all isLetterChar = true)
    (hleft : s = 0 ∨ isLetterChar (o.getD (s - 1) ' ') = false)
    (hright : e = o.length ∨ isLetterChar (o.getD e ' ') = false) :
    wordsAux o [] =
      wordsAux (o.take s) [] ++ pySlice o s e :: wordsAux (o.drop e) [] := by
  have hWne : pySlice o s e ≠ [] := by
    have := pySlice_length o hlen (s := s)
    intro hnil
    rw [hnil] at this
    simp at this
    omega
  have hdecomp : o = o.take s ++ (pySlice o s e ++ o.drop e) := by
    have h1 : (o.take e).take s = o.take s := by
      rw [List.take_take, Nat.min_eq_left (by omega)]
    have h2 : (o.take e).take s ++ (o.take e).drop s = o.take e :=
      List.take_append_drop s (o.take e)
    calc o = o.take e ++ o.drop e := (List.take_append_drop e o).symm
      _ = ((o.take e).take s ++ (o.take e).drop s) ++ o.drop e := by rw [h2]
      _ = o.take s ++ (pySlice o s e ++ o.drop e) := by
          rw [h1]
          unfold pySlice
          rw [List.append_assoc]
  have hhead : o.drop e = [] ∨ isLetterChar ((o.drop e).headD ' ') = false := by
    by_cases he : e < o.length
    · right
      rw [List.drop_eq_getElem_cons he]
      simp only [List.headD_cons]
      rcases hright with hh | hh
      · omega
      · rw [List.getD_eq_getElem o ' ' he] at hh
        exact hh
    · left
      exact List.drop_eq_nil_of_le (by omega)
  rcases Nat.eq_zero_or_pos s with hs0 | hspos
  · subst hs0
    conv =>
      left
      rw [hdecomp]
    simp only [List.take_zero, List.nil_append]
    rw [wordsAux_word_head (o.drop e) hhead (pySlice o 0 e) [] hslice (Or.inr hWne)]
    simp [wordsAux]
  · have hc0 : isLetterChar (o.getD (s - 1) ' ') = false := by
      rcases hleft with hh | hh
      · omega
      · exact hh
    have htake := take_decomp o (by omega : 1 ≤ s) (by omega : s ≤ o.length)
    conv =>
      left
      rw [hdecomp, htake]
    rw [List.append_assoc (o.take (s - 1)) [o.getD (s - 1) ' ']]
    rw [show [o.getD (s - 1) ' '] ++ (pySlice o s e ++ o.drop e) =
      o.getD (s - 1) ' ' :: (pySlice o s e ++ o.drop e) from rfl]
    rw [wordsAux_break (pySlice o s e ++ o.drop e) (o.getD (s - 1) ' ') hc0 (o.take (s - 1)) []]
    rw [← htake]
    rw [wordsAux_word_head (o.drop e) hhead (pySlice o s e) [] hslice (Or.inr hWne)]
    simp

theorem getD_take {o : Str} {n i : Nat} (h : i < n) (d : Char) :
    (o.take n).getD i d = o.getD i d := by
  by_cases hi : i < o.length
  · rw [List.getD_eq_getElem _ d (by rw [List.length_take]; omega),
      List.getD_eq_getElem o d hi]
    exact List.getElem_take _
  · have h1 : (o.take n).length ≤ i := by rw [List.length_take]; omega
    have h2 : o.length ≤ i := by omega
    rw [List.getD_eq_default _ d h1, List.getD_eq_default _ d h2]

theorem slice_head_letter (o : Str) {s e : Nat} (h : s < e) (hlen : e ≤ o.length)
    (hslice : (pySlice o s e).all isLetterChar = true) :
    isLetterChar (o.getD s ' ') = true := by
  have hsl : s < o.length := by omega
  rw [pySlice_eq_drop_take, List.drop_eq_getElem_cons hsl] at hslice
  have he1 : e - s = (e - s - 1) + 1 := by omega
  rw [he1, List.take_succ_cons, List.all_cons, Bool.and_eq_true] at hslice
  rw [List.getD_eq_getElem o ' ' hsl]
  exact hslice.1

theorem drop_head_nonletter (o : Str) {e : Nat} (hlen : e ≤ o.length)
    (hright : e = o.length ∨ isLetterChar (o.getD e ' ') = false) :
    o.drop e = [] ∨ isLetterChar ((o.drop e).headD ' ') = false := by
  by_cases he : e < o.length
  · right
    rw [List.drop_eq_getElem_cons he]
    simp only [List.headD_cons]
    rcases hright with hh | hh
    · omega
    · rw [List.getD_eq_getElem o ' ' he] at hh
      exact hh
  · left
    exact List.drop_eq_nil_of_le (by omega)

/-- A well-formed replacement entirely below `s` is a well-formed
replacement of the prefix `o.take s`. -/
theorem RepOK_prefix {o : Str} {s : Nat} (hs : s ≤ o.length) {s' e' : Nat} {b' : Str}
    (h : RepOK o s' e' b') (hlt : e' < s) : RepOK (o.take s) s' e' b' := by
  unfold RepOK at h ⊢
  have hslice : pySlice (o.take s) s' e' = pySlice o s' e' := by
    unfold pySlice
    rw [List.take_take, Nat.min_eq_left (by omega)]
  refine ⟨h.1, ?_, ?_, ?_, ?_, ?_⟩
  · rw [List.length_take]
    omega
  · rw [hslice]
    exact h.2.2.1
  · rcases h.2.2.2.1 with hh | hh
    · exact Or.inl hh
    · right
      rw [getD_take (by omega) ' ']
      exact hh
  · right
    rcases h.2.2.2.2.1 with hh | hh
    · omega
    · rw [getD_take (by omega) ' ']
      exact hh
  · rw [hslice]
    exact h.2.2.2.2.2

/-- The heart of the projection's safety: applying a descending disjoint
list of well-formed word replacements transforms the word list pointwise by
`is_small_word_edit` (unchanged words pass it reflexively). -/
theorem applyReps_words :
    ∀ (reps : List (Nat × Nat × Str)) (o : Str), SpansBelow o.length reps →
      (∀ r ∈ reps, RepOK o r.1 r.2.1 r.2.2) →
      List.Forall₂ (fun w w' => is_small_word_edit w w' = true)
        (wordsAux o []) (wordsAux (applyReps o reps) []) := by
  intro reps
  induction reps with
  | nil =>
    intro o _ _
    show List.Forall₂ _ (wordsAux o []) (wordsAux o [])
    rw [List.forall₂_same]
    intro w _
    exact is_small_word_edit_refl w
  | cons r rest ih =>
    rcases r with ⟨s, e, b⟩
    intro o hsb hrep
    simp only [SpansBelow] at hsb
    obtain ⟨hse, hlen, hrestb⟩ := hsb
    have hr0 := hrep (s, e, b) (List.mem_cons_self _ _)
    unfold RepOK at hr0
    simp only at hr0
    obtain ⟨_, _, hslice, hleft, hright, hbne, hblet, hsmall⟩ := hr0
    have hletter_s : isLetterChar (o.getD s ' ') = true :=
      slice_head_letter o hse hlen hslice
    have hsl : s < o.length := by omega
    have hstrict : ∀ r' ∈ rest, r'.2.1 < s := by
      intro r' hr'
      have hb := SpansBelow_all hrestb r' hr'
      have hro := hrep r' (List.mem_cons_of_mem _ hr')
      unfold RepOK at hro
      rcases Nat.lt_or_ge r'.2.1 s with hlt | hge
      · exact hlt
      · have heq : r'.2.1 = s := by omega
        exfalso
        rcases hro.2.2.2.2.1 with hh | hh
        · omega
        · rw [heq, hletter_s] at hh
          cases hh
    have hsplit := words_split o s e hse hlen hslice hleft hright
    have hhead := drop_head_nonletter o hlen hright
    have happly : applyReps o ((s, e, b) :: rest) =
        applyReps (o.take s) rest ++ (b ++ o.drop e) := by
      show applyReps (splice o (s, e, b)) rest = _
      have hspl : splice o (s, e, b) = o.take s ++ (b ++ o.drop e) := by
        unfold splice
        simp [List.append_assoc]
      rw [hspl]
      apply applyReps_frozen_suffix
      rw [List.length_take, Nat.min_eq_left (by omega)]
      exact hrestb
    rcases Nat.eq_zero_or_pos s with hs0 | hspos
    · have hrest0 : rest = [] := SpansBelow_zero (hs0 ▸ hrestb)
      subst hrest0
      subst hs0
      rw [happly, hsplit]
      rw [show applyReps (o.take 0) [] = [] from rfl]
      rw [show wordsAux (o.take 0) [] = [] from rfl]
      rw [List.nil_append, List.nil_append]
      rw [wordsAux_word_head (o.drop e) hhead b [] hblet (Or.inr hbne)]
      simp only [List.reverse_nil, List.nil_append]
      refine List.Forall₂.cons hsmall ?_
      rw [List.forall₂_same]
      intro w _
      exact is_small_word_edit_refl w
    · have hc0 : isLetterChar (o.getD (s - 1) ' ') = false := by
        rcases hleft with hh | hh
        · omega
        · exact hh
      have htake := take_decomp o (by omega : 1 ≤ s) (by omega : s ≤ o.length)
      have hsb1 : SpansBelow (s - 1) rest := by
        cases rest with
        | nil => trivial
        | cons r1 r' =>
          rcases r1 with ⟨s1, e1, b1⟩
          simp only [SpansBelow] at hrestb ⊢
          have := hstrict (s1, e1, b1) (List.mem_cons_self _ _)
          simp only at this
          exact ⟨hrestb.1, by omega, hrestb.2.2⟩
      have happly2 : applyReps (o.take s) rest =
          applyReps (o.take (s - 1)) rest ++ [o.getD (s - 1) ' '] := by
        rw [htake]
        apply applyReps_frozen_suffix
        rw [List.length_take, Nat.min_eq_left (by omega)]
        exact hsb1
      rw [happly, hsplit, happly2]
      rw [List.append_assoc]
      rw [show [o.getD (s - 1) ' '] ++ (b ++ o.drop e) =
        o.getD (s - 1) ' ' :: (b ++ o.drop e) from rfl]
      rw [wordsAux_break (b ++ o.drop e) (o.getD (s - 1) ' ') hc0
        (applyReps (o.take (s - 1)) rest) []]
      rw [← happly2]
      rw [wordsAux_word_head (o.drop e) hhead b [] hblet (Or.inr hbne)]
      simp only [List.reverse_nil, List.nil_append]
      apply List.rel_append
      · apply ih (o.take s)
        · rw [List.length_take, Nat.min_eq_left (by omega)]
          exact hrestb
        · intro r' hr'
          exact RepOK_prefix (by omega) (hrep r' (List.mem_cons_of_mem _ hr'))
            (hstrict r' hr')
      · refine List.Forall₂.cons hsmall ?_
        rw [List.forall₂_same]
        intro w _
        exact is_small_word_edit_refl w

/-! ### C10: the collected replacements are well-formed and ordered -/

theorem pairwise_filterMap_of {A B : Type} (f : A → Option B) {R : A → A → Prop}
    {S : B → B → Prop}
    (hstep : ∀ a a' b b', R a a' → f a = some b → f a' = some b' → S b b') :
    ∀ {l : List A}, List.Pairwise R l → List.Pairwise S (l.filterMap f) := by
  intro l
  induction l with
  | nil => intro _; simp
  | cons a rest ih =>
    intro h
    rcases hfa : f a with _ | b
    · rw [List.filterMap_cons_none hfa]
      exact ih h.of_cons
    · rw [List.filterMap_cons_some hfa]
      refine List.Pairwise.cons ?_ (ih h.of_cons)
      intro b' hb'
      rcases List.mem_filterMap.mp hb' with ⟨a', ha', hfa'⟩
      exact hstep a a' b b' (List.rel_of_pairwise_cons h ha') hfa hfa'

theorem pairwise_mem_strengthen {A : Type} {R : A → A → Prop} {l : List A}
    (h : List.Pairwise R l) :
    List.Pairwise (fun x y => R x y ∧ x ∈ l ∧ y ∈ l) l := by
  rw [List.pairwise_iff_getElem] at h ⊢
  intro i j hi hj hij
  exact ⟨h i j hi hj hij, List.getElem_mem _, List.getElem_mem _⟩

theorem insortRep_perm (x : Nat × Nat × Str) :
    ∀ l : List (Nat × Nat × Str), (insortRep x l).Perm (x :: l) := by
  intro l
  induction l with
  | nil => exact List.Perm.refl _
  | cons y ys ih =>
    simp only [insortRep]
    by_cases h : y.1 ≤ x.1
    · rw [if_pos h]
    · rw [if_neg h]
      exact (ih.cons y).trans (List.Perm.swap x y ys)

theorem sortRepsDesc_perm : ∀ l : List (Nat × Nat × Str), (sortRepsDesc l).Perm l := by
  intro l
  induction l with
  | nil => exact List.Perm.refl _
  | cons x xs ih => exact (insortRep_perm x (sortRepsDesc xs)).trans (ih.cons x)

theorem insortRep_sorted (x : Nat × Nat × Str) :
    ∀ l : List (Nat × Nat × Str), List.Pairwise (fun a b => b.1 ≤ a.1) l →
      List.Pairwise (fun a b => b.1 ≤ a.1) (insortRep x l) := by
  intro l
  induction l with
  | nil => intro _; simp [insortRep]
  | cons y ys ih =>
    intro h
    simp only [insortRep]
    by_cases hc : y.1 ≤ x.1
    · rw [if_pos hc]
      refine List.Pairwise.cons ?_ h
      intro b hb
      rcases List.mem_cons.mp hb with heq | hby
      · rw [heq]
        exact hc
      · have := List.rel_of_pairwise_cons h hby
        omega
    · rw [if_neg hc]
      refine List.Pairwise.cons ?_ (ih h.of_cons)
      intro b hb
      have hmem : b ∈ x :: ys := (insortRep_perm x ys).mem_iff.mp hb
      rcases List.mem_cons.mp hmem with heq | hby
      · rw [heq]
        omega
      · exact List.rel_of_pairwise_cons h hby

theorem sortRepsDesc_sorted :
    ∀ l : List (Nat × Nat × Str),
      List.Pairwise (fun a b => b.1 ≤ a.1) (sortRepsDesc l) := by
  intro l
  induction l with
  | nil => simp [sortRepsDesc]
  | cons x xs ih => exact insortRep_sorted x (sortRepsDesc xs) ih

/-- An ascending disjoint replacement list becomes a descending disjoint
one after the `reverse=True` sort by start. -/
theorem sortRepsDesc_desc_disjoint {l : List (Nat × Nat × Str)}
    (hdisj : List.Pairwise (fun r r' => r.2.1 ≤ r'.1) l)
    (hlt : ∀ r ∈ l, r.1 < r.2.1) :
    List.Pairwise (fun r r' => r'.2.1 ≤ r.1) (sortRepsDesc l) := by
  have hperm := sortRepsDesc_perm l
  have hsorted := sortRepsDesc_sorted l
  have hsym : List.Pairwise (fun r r' => r.2.1 ≤ r'.1 ∨ r'.2.1 ≤ r.1) (sortRepsDesc l) := by
    refine (hperm.pairwise_iff ?_).mpr (hdisj.imp (fun h => Or.inl h))
    intro a b h
    rcases h with h | h
    · exact Or.inr h
    · exact Or.inl h
  have hcomb := pairwise_mem_strengthen (hsorted.and hsym)
  apply List.Pairwise.imp _ hcomb
  intro a b h
  obtain ⟨⟨hle, hdj⟩, hma, _⟩ := h
  have ha := hlt a (hperm.mem_iff.mp hma)
  rcases hdj with h1 | h1
  · omega
  · exact h1

theorem spansBelow_of_pairwise :
    ∀ {l : List (Nat × Nat × Str)} {n : Nat},
      List.Pairwise (fun x y => y.2.1 ≤ x.1) l →
      (∀ r ∈ l, r.1 < r.2.1 ∧ r.2.1 ≤ n) → SpansBelow n l := by
  intro l
  induction l with
  | nil => intro n _ _; trivial
  | cons x rest ih =>
    rcases x with ⟨s, e, b⟩
    intro n hp hall
    have hx := hall (s, e, b) (List.mem_cons_self _ _)
    simp only at hx
    refine ⟨hx.1, hx.2, ?_⟩
    apply ih hp.of_cons
    intro r hr
    have h1 := hall r (List.mem_cons_of_mem _ hr)
    have hhead := List.rel_of_pairwise_cons hp hr
    exact ⟨h1.1, hhead⟩

/-- Every word produced by `extract_words` is a non-empty letter word. -/
theorem extract_words_wf (c : Str) :
    ∀ w ∈ extract_words c, w ≠ [] ∧ w.all isLetterChar = true := by
  intro w hw
  unfold extract_words at hw
  rcases List.mem_map.mp hw with ⟨x, hx, hwx⟩
  have hok := wordScan_sound c x hx
  unfold WordTokOK at hok
  subst hwx
  refine ⟨?_, hok.2.2.2.1⟩
  intro hnil
  rw [hok.1] at hnil
  have h0 := pySlice_length c hok.2.2.1 (s := x.2.1)
  rw [hnil] at h0
  simp at h0
  have := hok.2.1
  omega

/-- Shape of a successfully collected replacement. -/
theorem collectRep_some {M : List (Str × Nat × Nat)} {C : List Str}
    {op : Tag × Nat × Nat × Nat × Nat} {r : Nat × Nat × Str}
    (h : collectRep M C op = some r) :
    op.2.2.1 = op.2.1 + 1 ∧ op.2.2.2.2 = op.2.2.2.1 + 1 ∧
      r = ((M.getD op.2.1 ([], 0, 0)).2.1, (M.getD op.2.1 ([], 0, 0)).2.2,
        C.getD op.2.2.2.1 []) ∧
      is_small_word_edit (M.getD op.2.1 ([], 0, 0)).1 (C.getD op.2.2.2.1 []) = true := by
  rcases op with ⟨tag, i1, i2, j1, j2⟩
  dsimp only [collectRep] at h
  dsimp only
  by_cases h1 : tag = Tag.replace ∧ i2 - i1 = 1 ∧ j2 - j1 = 1
  · rw [if_pos h1] at h
    by_cases h2 : is_small_word_edit (M.getD i1 ([], 0, 0)).1 (C.getD j1 []) = true
    · rw [if_pos h2] at h
      injection h with h
      have hi2 := h1.2.1
      have hj2 := h1.2.2
      exact ⟨by omega, by omega, h.symm, h2⟩
    · rw [if_neg h2] at h
      cases h
  · rw [if_neg h1] at h
    cases h

/-- Every replacement collected from in-range opcodes over the word lists is
a well-formed word replacement of the original. -/
theorem collectReps_RepOK (o c : Str) (ops : List (Tag × Nat × Nat × Nat × Nat))
    (hb : ∀ op ∈ ops, op.2.2.1 ≤ (wordScan o 0 none).length ∧
        op.2.2.2.2 ≤ (extract_words c).length) :
    ∀ r ∈ collectReps (wordScan o 0 none) (extract_words c) ops,
      RepOK o r.1 r.2.1 r.2.2 := by
  intro r hr
  rcases List.mem_filterMap.mp hr with ⟨op, hop, hsome⟩
  obtain ⟨hi2, hj2, hreq, hsmall⟩ := collectRep_some hsome
  obtain ⟨hbi, hbj⟩ := hb op hop
  have hi : op.2.1 < (wordScan o 0 none).length := by omega
  have hj : op.2.2.2.1 < (extract_words c).length := by omega
  have hgetM : (wordScan o 0 none).getD op.2.1 ([], 0, 0) =
      (wordScan o 0 none)[op.2.1] := List.getD_eq_getElem _ _ hi
  have hgetC : (extract_words c).getD op.2.2.2.1 [] =
      (extract_words c)[op.2.2.2.1] := List.getD_eq_getElem _ _ hj
  have hok := wordScan_sound o ((wordScan o 0 none)[op.2.1]) (List.getElem_mem _)
  have hw := extract_words_wf c ((extract_words c)[op.2.2.2.1]) (List.getElem_mem _)
  unfold WordTokOK at hok
  subst hreq
  rw [hgetM, hgetC] at hsmall
  dsimp only
  rw [hgetM, hgetC]
  unfold RepOK
  refine ⟨hok.2.1, hok.2.2.1, ?_, hok.2.2.2.2.1, hok.2.2.2.2.2, hw.1, hw.2, ?_⟩
  · rw [← hok.1]
    exact hok.2.2.2.1
  · rw [← hok.1]
    exact hsmall

/-- The collected replacements inherit the ascending disjointness of the
opcodes through the scanner's span ordering. -/
theorem collectReps_pairwise (o c : Str) (ops : List (Tag × Nat × Nat × Nat × Nat))
    (hb : ∀ op ∈ ops, op.2.2.1 ≤ (wordScan o 0 none).length ∧
        op.2.2.2.2 ≤ (extract_words c).length)
    (hp : List.Pairwise (fun x y => x.2.2.1 ≤ y.2.1 ∧ x.2.2.2.2 ≤ y.2.2.2.1) ops) :
    List.Pairwise (fun r r' => r.2.1 ≤ r'.1)
      (collectReps (wordScan o 0 none) (extract_words c) ops) := by
  unfold collectReps
  apply pairwise_filterMap_of _ ?_ (pairwise_mem_strengthen hp)
  intro a a' b b' hR hfa hfa'
  obtain ⟨⟨hord, _⟩, hma, hma'⟩ := hR
  obtain ⟨hia2, _, hreqa, _⟩ := collectRep_some hfa
  obtain ⟨hia2', _, hreqa', _⟩ := collectRep_some hfa'
  obtain ⟨hba1, _⟩ := hb a hma
  obtain ⟨hba1', _⟩ := hb a' hma'
  have hia : a.2.1 < (wordScan o 0 none).length := by omega
  have hia' : a'.2.1 < (wordScan o 0 none).length := by omega
  have hlt : a.2.1 < a'.2.1 := by omega
  have hpw := wordScan_pairwise o
  rw [List.pairwise_iff_getElem] at hpw
  have hspan := hpw a.2.1 a'.2.1 hia hia' hlt
  subst hreqa hreqa'
  dsimp only
  rw [List.getD_eq_getElem _ _ hia, List.getD_eq_getElem _ _ hia']
  exact hspan

/-- `project_safe_word_corrections`, with its `let` bindings expanded. -/
theorem psc_eq (o c : Str) : project_safe_word_corrections o c =
    (if ((wordScan o 0 none).map (·.1)).isEmpty ∨ (extract_words c).isEmpty then o
     else if (collectReps (wordScan o 0 none) (extract_words c)
         (get_opcodes (((wordScan o 0 none).map (·.1)).map (·.map pyLower))
           ((extract_words c).map (·.map pyLower)))).isEmpty then o
     else applyReps o (sortRepsDesc (collectReps (wordScan o 0 none) (extract_words c)
         (get_opcodes (((wordScan o 0 none).map (·.1)).map (·.map pyLower))
           ((extract_words c).map (·.map pyLower)))))) := rfl

/-- The output of `project_safe_word_corrections` is the original with a
descending disjoint list of well-formed word replacements spliced in. -/
theorem projection_reps_exist (o c : Str) :
    ∃ reps, SpansBelow o.length reps ∧ (∀ r ∈ reps, RepOK o r.1 r.2.1 r.2.2) ∧
      project_safe_word_corrections o c = applyReps o reps := by
  by_cases h1 : (((wordScan o 0 none).map (·.1)).isEmpty = true ∨
      (extract_words c).isEmpty = true)
  · refine ⟨[], trivial, ?_, ?_⟩
    · intro r hr
      cases hr
    · rw [psc_eq, if_pos h1]
      rfl
  · by_cases h2 : (collectReps (wordScan o 0 none) (extract_words c)
        (get_opcodes (((wordScan o 0 none).map (·.1)).map (·.map pyLower))
          ((extract_words c).map (·.map pyLower)))).isEmpty = true
    · refine ⟨[], trivial, ?_, ?_⟩
      · intro r hr
        cases hr
      · rw [psc_eq, if_neg h1, if_pos h2]
        rfl
    · have hblocks := get_matching_blocks_ok
        (((wordScan o 0 none).map (·.1)).map (·.map pyLower))
        ((extract_words c).map (·.map pyLower))
      have hb : ∀ op ∈ get_opcodes (((wordScan o 0 none).map (·.1)).map (·.map pyLower))
          ((extract_words c).map (·.map pyLower)),
          op.2.2.1 ≤ (wordScan o 0 none).length ∧
          op.2.2.2.2 ≤ (extract_words c).length := by
        intro op hop
        have h := opcodesAux_mem_bounds hblocks op hop
        constructor
        · have h3 := h.2.2.1
          simpa [List.length_map] using h3
        · have h3 := h.2.2.2.2.2
          simpa [List.length_map] using h3
      have hpops : List.Pairwise (fun x y => x.2.2.1 ≤ y.2.1 ∧ x.2.2.2.2 ≤ y.2.2.2.1)
          (get_opcodes (((wordScan o 0 none).map (·.1)).map (·.map pyLower))
            ((extract_words c).map (·.map pyLower))) := opcodesAux_pairwise hblocks
      have hRok := collectReps_RepOK o c _ hb
      have hRpw := collectReps_pairwise o c _ hb hpops
      have hlt : ∀ r ∈ collectReps (wordScan o 0 none) (extract_words c)
          (get_opcodes (((wordScan o 0 none).map (·.1)).map (·.map pyLower))
            ((extract_words c).map (·.map pyLower))), r.1 < r.2.1 := by
        intro r hr
        have hro := hRok r hr
        unfold RepOK at hro
        exact hro.1
      have hperm := sortRepsDesc_perm (collectReps (wordScan o 0 none) (extract_words c)
        (get_opcodes (((wordScan o 0 none).map (·.1)).map (·.map pyLower))
          ((extract_words c).map (·.map pyLower))))
      have hdesc := sortRepsDesc_desc_disjoint hRpw hlt
      refine ⟨sortRepsDesc (collectReps (wordScan o 0 none) (extract_words c)
        (get_opcodes (((wordScan o 0 none).map (·.1)).map (·.map pyLower))
          ((extract_words c).map (·.map pyLower)))), ?_, ?_, ?_⟩
      · apply spansBelow_of_pairwise hdesc
        intro r hr
        have hro := hRok r (hperm.mem_iff.mp hr)
        unfold RepOK at hro
        exact ⟨hro.1, hro.2.1⟩
      · intro r hr
        exact hRok r (hperm.mem_iff.mp hr)
      · rw [psc_eq, if_neg h1, if_neg h2]

/-- C1, counterexample.  The claim states that `diff("alt for", "altfor")`
returns the empty list under the default policy.  In the code, the replace
branch accepts a chunk pair whenever the whitespace-stripped lowercased
chunks are equal, which is exactly the case for a pure compound join, so
the merge IS surfaced: the result is non-empty. -/
theorem C1_merge_surfaced_cex :
    find_differences_charwise "alt for".toList "altfor".toList ≠ [] := by
  decide

/-- C1, amended.  `diff("alt for", "altfor")` returns exactly one `replace`
record spanning the whole original (`start=0`, `end=7`,
`original="alt for"`, `suggestion="altfor"`): a pure compound join is
surfaced as a single replace edit, because `norm_no_space` equality is an
acceptance criterion of the replace branch. -/
theorem C1_merge_surfaced :
    find_differences_charwise "alt for".toList "altfor".toList =
      [⟨Tag.replace, 0, 7, "alt for".toList, "altfor".toList⟩] := by
  decide

/-- C3, counterexample.  The claim places the inserted comma of
`diff("Hei der", "Hei, der")` at the offset immediately after `"Hei"`,
which is offset 3.  The code anchors an insertion at the start of the FIRST
FOLLOWING original token (`spans[i1][0]`), which is offset 4 (the start of
`"der"`), not 3. -/
theorem C3_insert_offset_cex :
    find_differences_charwise "Hei der".toList "Hei, der".toList =
      [⟨Tag.insert, 4, 4, [], [',']⟩] ∧ (4 : Nat) ≠ 3 := by
  constructor
  · decide
  · decide

/-- C3, amended.  `diff("Hei der", "Hei, der")` returns exactly one
`insert` record with `suggestion=","` and `start = end = 4`: the insertion
is anchored at the start of the next original token (`"der"`), i.e.
immediately before the following word, not immediately after `"Hei"`. -/
theorem C3_insert_offset :
    find_differences_charwise "Hei der".toList "Hei, der".toList =
      [⟨Tag.insert, 4, 4, [], [',']⟩] := by
  decide

/-- C7.  `diff("tekst", "tekkst")` returns exactly one `replace` record
with `start=0`, `end=5`, `original="tekst"`, `suggestion="tekkst"`. -/
theorem C7_small_edit_accepted :
    find_differences_charwise "tekst".toList "tekkst".toList =
      [⟨Tag.replace, 0, 5, "tekst".toList, "tekkst".toList⟩] := by
  decide

/-- C5, counterexample.  The claim says a 1-to-1 replace is accepted only
when the similarity ratio meets a threshold in the 0.6–0.9 range, with the
default requiring a first-character match and no length growth.  The code
accepts `"abc" -> "bcde"` (one token against one token) although its ratio
is 4/7 < 0.6, the first characters differ and the suggestion is longer:
the only test applied is `norm_no_space` equality or ratio >= 0.55, with
no first-letter or length guard. -/
theorem C5_threshold_cex :
    find_differences_charwise "abc".toList "bcde".toList =
        [⟨Tag.replace, 0, 3, "abc".toList, "bcde".toList⟩] ∧
      ratioGe "abc".toList "bcde".toList 60 100 = false ∧
      ratioGe "abc".toList "bcde".toList 55 100 = true := by
  refine ⟨by decide, by decide, by decide⟩

/-- C8, counterexample.  The claim says `diff(o, "")` never returns a
delete record covering the entire original.  For `o = "ab"` the single
delete opcode survives the "small delete" filter (stripped length <= 2)
and the returned record deletes the whole original string (and with it
every word of `o`). -/
theorem C8_full_delete_cex :
    find_differences_charwise "ab".toList [] =
      [⟨Tag.delete, 0, 2, "ab".toList, []⟩] := by
  decide

/-- C2, counterexample.  The claim asserts `o[r.start:r.end] == r.original`
for the raw input `o`.  Offsets are computed against the NEWLINE-NORMALIZED
(and NFC-normalized) original, so for an original containing `"\r\n"` the
raw-input substring at the returned span differs from `r.original`. -/
theorem C2_raw_offset_cex :
    find_differences_charwise "a\r\nb.".toList "a\nb".toList =
        [⟨Tag.delete, 3, 4, ['.'], []⟩] ∧
      pySlice "a\r\nb.".toList 3 4 ≠ ['.'] := by
  refine ⟨by decide, by decide⟩

/-- C2, amended.  For every pair of input strings and every record `r`
returned by `diff`, the span is valid and the substring condition holds
with respect to the NORMALIZED original (NFC + newline replacement), not
the raw one: `0 <= r.start <= r.end <= len(norm o)`,
`(norm o)[r.start:r.end] == r.original`, `r.start == r.end` for inserts
and `r.suggestion == ""` for deletes. -/
theorem C2_span_validity (o s : Str) :
    ∀ r ∈ find_differences_charwise o s,
      r.start ≤ r.stop ∧ r.stop ≤ (normalizeText o).length ∧
        r.original = pySlice (normalizeText o) r.start r.stop ∧
        (r.type = Tag.insert → r.start = r.stop) ∧
        (r.type = Tag.delete → r.suggestion = []) :=
  find_differences_mem_wf o s

theorem C2_span_validity_witness :
    (⟨Tag.replace, 0, 5, "tekst".toList, "tekkst".toList⟩ : EditRecord).original =
      pySlice (normalizeText "tekst".toList) 0 5 :=
  (C2_span_validity "tekst".toList "tekkst".toList
    ⟨Tag.replace, 0, 5, "tekst".toList, "tekkst".toList⟩ (by decide)).2.2.1

/-- C4.  `diff(t, t) = []` for every string `t`: both sides normalize and
tokenize identically, the alignment of a token list with itself is a single
`equal` run, and `equal` opcodes are never surfaced. -/
theorem C4_noop (t : Str) : find_differences_charwise t t = [] := by
  unfold find_differences_charwise
  split
  · rfl
  · rw [rawDiffsOf_self]
    rfl

/-- C6.  The returned record list is sorted by `start` ascending and its
`[start, end)` spans are pairwise non-overlapping (each record even ends
strictly before the next begins, by the grouping loop's merge condition). -/
theorem C6_sorted_disjoint (o s : Str) :
    List.Pairwise (fun r1 r2 => r1.start ≤ r2.start ∧ r1.stop ≤ r2.start)
      (find_differences_charwise o s) := by
  have hpw := find_differences_pairwise o s
  have hwf := find_differences_mem_wf o s
  rw [List.pairwise_iff_get] at hpw ⊢
  intro i j hij
  have h1 := hpw i j hij
  have h2 := hwf ((find_differences_charwise o s).get i) (List.get_mem _ i.1 i.2)
  exact ⟨by omega, by omega⟩

/-- C8, amended.  For the empty suggestion, `diff(o, "")` returns at most
one record; any returned record is a `delete` with empty suggestion whose
original chunk is pure punctuation or has stripped length at most 2.  (The
original claim — that no delete can ever cover the whole original — fails
for tiny originals such as `"ab"`, see the counterexample.  Conversely a
returned delete need not cover the whole original — the chunk runs from the
first to the last token, excluding outer whitespace — and an original whose
chunk strips to more than 2 characters, counting internal whitespace as in
`"a b"`, yields no record at all.) -/
theorem C8_empty_suggestion (o : Str) :
    (find_differences_charwise o []).length ≤ 1 ∧
      ∀ r ∈ find_differences_charwise o [],
        r.type = Tag.delete ∧ r.suggestion = [] ∧
          (is_pure_punct r.original = true ∨ (pyStrip r.original).length ≤ 2) := by
  have hL := rawDiffsOf_empty_corr (normalizeText o)
  constructor
  · unfold find_differences_charwise
    split
    · simp
    · split
      · simp
      · rename_i d0 rest heq
        have hperm := sortRaw_perm (rawDiffsOf (normalizeText o) (normalizeText []))
        have h1 := hperm.length_eq
        rw [heq] at h1
        simp only [List.length_cons] at h1
        have h2 := hL.2
        rw [show normalizeText ([] : Str) = [] from rfl] at h1
        have h3 : rest.length = 0 := by omega
        have hrest := List.eq_nil_of_length_eq_zero h3
        subst hrest
        have hgroup : groupRaw (normalizeText o) (normalizeText []) d0 [] = [d0] := rfl
        rw [hgroup]
        have hsl := (dedupe_sublist [d0] []).length_le
        simp only [List.length_map, List.length_cons, List.length_nil] at hsl
        omega
  · intro r hr
    unfold find_differences_charwise at hr
    split at hr
    · cases hr
    · rename_i hne
      split at hr
      · cases hr
      · rename_i d0 rest heq
        have hperm := sortRaw_perm (rawDiffsOf (normalizeText o) (normalizeText []))
        have hlen : rest = [] := by
          have h1 := hperm.length_eq
          rw [heq] at h1
          simp only [List.length_cons] at h1
          have h2 := hL.2
          rw [show normalizeText ([] : Str) = [] from rfl] at h1
          have : rest.length = 0 := by omega
          exact List.eq_nil_of_length_eq_zero this
        subst hlen
        have hd0 : d0 ∈ rawDiffsOf (normalizeText o) [] := by
          have : d0 ∈ sortRaw (rawDiffsOf (normalizeText o) (normalizeText [])) := by
            rw [heq]; exact List.mem_cons_self _ _
          rw [show normalizeText ([] : Str) = [] from rfl] at this
          exact (sortRaw_perm _).subset this
        have hprops := hL.1 d0 hd0
        have hgroup : groupRaw (normalizeText o) (normalizeText []) d0 [] = [d0] := rfl
        rw [hgroup] at hr
        obtain ⟨d, hd, rfl⟩ := dedupe_mem hr
        simp only [List.mem_singleton] at hd
        subst hd
        exact hprops

theorem C8_empty_suggestion_witness :
    (find_differences_charwise "ab".toList []).length ≤ 1 :=
  (C8_empty_suggestion "ab".toList).1

/-- C9.  The embedded `diff` is a total Lean function (every operation of
the source on this path is total, with the source's own guards translated
to pattern matches), and on degenerate input — any pair whose normalized
texts contain no tokens at all, which covers empty strings and strings of
pure whitespace — it degrades to the empty list rather than failing. -/
theorem C9_totality_degenerate (o s : Str)
    (h1 : tokensWithSpans (normalizeText o) = [])
    (h2 : tokensWithSpans (normalizeText s) = []) :
    find_differences_charwise o s = [] := by
  have hraw : rawDiffsOf (normalizeText o) (normalizeText s) = [] := by
    unfold rawDiffsOf
    rw [h1, h2]
    simp only [List.map_nil]
    rw [get_opcodes_nil_right]
    simp
  unfold find_differences_charwise
  split
  · rfl
  · rw [hraw]
    rfl

theorem C9_totality_degenerate_witness :
    find_differences_charwise " \n ".toList "\t".toList = [] :=
  C9_totality_degenerate " \n ".toList "\t".toList (by decide) (by decide)

/-- C5, amended.  The replace acceptance rule of the code, in full
generality and end to end.  First conjunct: for EVERY replace opcode —
1-to-1 or multi-token (`i2 - i1`, `j2 - j1` arbitrary), anywhere in the
texts (arbitrary token index and span lists) — that is within the 14-token
and 180-character locality limits, the per-opcode classification (the
function the diff loop applies to each opcode) accepts, as the replace
record over the chunk spans, exactly when the whitespace-stripped
lowercased chunks are equal or the SequenceMatcher ratio of the lowercased
chunks is at least 0.55; the acceptance condition involves no
first-character match, no length-growth bound and no punctuation
stripping, and the threshold is 0.55, not a value in the 0.6–0.9 range.
Second conjunct: end to end, for a 1-to-1 replace of two distinct
single-word inputs the accepted record is surfaced unchanged in the final
output, under the same criterion. -/
theorem C5_accept_characterization :
    (∀ (ot ct : Str) (ospans cspans : List (Nat × Nat)) (i1 i2 j1 j2 : Nat)
        (osp csp : Nat × Nat) (oChunk cChunk : Str),
        osp = span_for_token_range ospans i1 i2 ot.length →
        csp = span_for_token_range cspans j1 j2 ct.length →
        oChunk = pySlice ot osp.1 osp.2 →
        cChunk = pySlice ct csp.1 csp.2 →
        (i2 - i1) + (j2 - j1) ≤ 14 →
        oChunk.length + cChunk.length ≤ 180 →
        classifyOp ot ct ospans cspans (Tag.replace, i1, i2, j1, j2) =
          (if norm_no_space oChunk = norm_no_space cChunk ∨
              ratioGe (oChunk.map pyLower) (cChunk.map pyLower) 55 100 = true then
            some ⟨Tag.replace, osp.1, osp.2, oChunk, cChunk, csp.1, csp.2⟩
          else none)) ∧
    ∀ (a b : Str), a.all isLetterChar = true → b.all isLetterChar = true →
      a ≠ [] → b ≠ [] → a ≠ b → a.length + b.length ≤ 180 →
      find_differences_charwise a b =
        (if norm_no_space a = norm_no_space b ∨
            ratioGe (a.map pyLower) (b.map pyLower) 55 100 = true then
          [⟨Tag.replace, 0, a.length, a, b⟩]
        else []) := by
  constructor
  · intro ot ct ospans cspans i1 i2 j1 j2 osp csp oChunk cChunk hosp hcsp hoc hcc hg1 hg2
    subst hoc hcc hosp hcsp
    simp only [classifyOp]
    rw [if_neg (by decide : ¬(Tag.replace = Tag.equal)),
      if_neg (Nat.not_lt.mpr hg1), if_neg (Nat.not_lt.mpr hg2), if_pos trivial]
  · intro a b ha hb hane hbne hab hlen
    have hwa : a.all isWordChar = true := by
      rw [List.all_eq_true] at ha ⊢
      exact fun c hc => isWordChar_of_isLetterChar (ha c hc)
    have hwb : b.all isWordChar = true := by
      rw [List.all_eq_true] at hb ⊢
      exact fun c hc => isWordChar_of_isLetterChar (hb c hc)
    have hna : normalizeText a = a := by
      apply normNewlines_of_no_cr
      rw [List.all_eq_true] at ha
      exact fun c hc => ne_cr_of_isLetterChar (ha c hc)
    have hnb : normalizeText b = b := by
      apply normNewlines_of_no_cr
      rw [List.all_eq_true] at hb
      exact fun c hc => ne_cr_of_isLetterChar (hb c hc)
    have htoka := tokensWithSpans_word a hwa hane
    have htokb := tokensWithSpans_word b hwb hbne
    have hsp : ∀ (w : Str), span_for_token_range [(0, w.length)] 0 1 w.length =
        (0, w.length) := by
      intro w
      simp [span_for_token_range]
    have hclass : classifyOp a b [(0, a.length)] [(0, b.length)] (Tag.replace, 0, 1, 0, 1) =
        (if norm_no_space a = norm_no_space b ∨
            ratioGe (a.map pyLower) (b.map pyLower) 55 100 = true then
          some ⟨Tag.replace, 0, a.length, a, b, 0, b.length⟩
        else none) := by
      simp only [classifyOp, hsp a, hsp b, pySlice_full]
      rw [if_neg (by decide : ¬(Tag.replace = Tag.equal)),
        if_neg (by simp : ¬(14 : Nat) < 1 - 0 + (1 - 0)),
        if_neg (by omega : ¬180 < a.length + b.length),
        if_pos trivial]
    have hraw : rawDiffsOf a b =
        (if norm_no_space a = norm_no_space b ∨
            ratioGe (a.map pyLower) (b.map pyLower) 55 100 = true then
          [(⟨Tag.replace, 0, a.length, a, b, 0, b.length⟩ : RawDiff)]
        else []) := by
      unfold rawDiffsOf
      rw [htoka, htokb]
      simp only [List.map_cons, List.map_nil]
      rw [get_opcodes_single_ne a b hab]
      by_cases hcond : norm_no_space a = norm_no_space b ∨
          ratioGe (a.map pyLower) (b.map pyLower) 55 100 = true
      · rw [if_pos hcond]
        rw [List.filterMap_cons]
        rw [if_pos hcond] at hclass
        rw [hclass]
        rfl
      · rw [if_neg hcond]
        rw [List.filterMap_cons]
        rw [if_neg hcond] at hclass
        rw [hclass]
        rfl
    unfold find_differences_charwise
    rw [hna, hnb, hraw]
    rw [if_neg (by
      intro hcontra
      rw [List.isEmpty_iff] at hcontra
      exact hane hcontra.1)]
    by_cases hcond : norm_no_space a = norm_no_space b ∨
        ratioGe (a.map pyLower) (b.map pyLower) 55 100 = true
    · rw [if_pos hcond, if_pos hcond]
      rfl
    · rw [if_neg hcond, if_neg hcond]
      rfl

theorem C5_accept_characterization_witness :
    (classifyOp "Hei abc der".toList "Hei bcde der".toList
        [(0, 3), (4, 7), (8, 11)] [(0, 3), (4, 8), (9, 12)] (Tag.replace, 1, 2, 1, 2) =
      (if norm_no_space "abc".toList = norm_no_space "bcde".toList ∨
          ratioGe ("abc".toList.map pyLower) ("bcde".toList.map pyLower) 55 100 = true then
        some ⟨Tag.replace, 4, 7, "abc".toList, "bcde".toList, 4, 8⟩
      else none)) ∧
    find_differences_charwise "abc".toList "bcde".toList =
      (if norm_no_space "abc".toList = norm_no_space "bcde".toList ∨
          ratioGe ("abc".toList.map pyLower) ("bcde".toList.map pyLower) 55 100 = true then
        [⟨Tag.replace, 0, "abc".toList.length, "abc".toList, "bcde".toList⟩]
      else []) :=
  ⟨C5_accept_characterization.1 "Hei abc der".toList "Hei bcde der".toList
      [(0, 3), (4, 7), (8, 11)] [(0, 3), (4, 8), (9, 12)] 1 2 1 2
      (4, 7) (4, 8) "abc".toList "bcde".toList (by decide) (by decide) (by decide)
      (by decide) (by decide) (by decide),
    C5_accept_characterization.2 "abc".toList "bcde".toList (by decide) (by decide)
      (by decide) (by decide) (by decide) (by decide)⟩

/-- C10: `project_safe_word_corrections` is a frame-preserving word
projection.  For every pair of inputs, the output contains exactly as many
letter-word tokens as the original, in the same order, with every output
word related to the corresponding original word by `is_small_word_edit`;
and the output is literally the original string with a disjoint descending
list of well-formed maximal word spans spliced out for replacement words —
so every character outside the replaced word spans (all whitespace and
punctuation) is preserved from the original. -/
theorem C10_projection_frame (o c : Str) :
    List.Forall₂ (fun w w' => is_small_word_edit w w' = true)
        (extract_words o) (extract_words (project_safe_word_corrections o c)) ∧
      ∃ reps, SpansBelow o.length reps ∧
        (∀ r ∈ reps, RepOK o r.1 r.2.1 r.2.2) ∧
        project_safe_word_corrections o c = applyReps o reps := by
  obtain ⟨reps, hsb, hrep, heq⟩ := projection_reps_exist o c
  refine ⟨?_, reps, hsb, hrep, heq⟩
  rw [heq, extract_words_eq_wordsAux o, extract_words_eq_wordsAux (applyReps o reps)]
  exact applyReps_words reps o hsb hrep

end NorwayApp
